import Mathlib

/-!
# Verification of the `xcbuild-bom` BOM archive core

Shallow embedding of `crates/xcbuild-bom/src/lib.rs`.

Modelling conventions:
* A byte buffer (`Vec<u8>`, `&[u8]`) is a `List Nat`; a buffer corresponding
  to real data has every element `< 256`.  Reading past the end of a list
  yields `0`; every read in the embedded code sits behind the same bounds
  check as in the source, so this default is never observable.
* Rust `String`s are identified with their UTF-8 byte sequences
  (`String::from_utf8_lossy ∘ String::as_bytes` is the identity on valid
  UTF-8), so variable names and file names are also `List Nat`.
* Machine integers are `Nat`; a `as u32` / `as u8` / `as u16` cast is
  `% 2 ^ 32` / `% 2 ^ 8` / `% 2 ^ 16` at the cast site.  Intermediate `u32`
  additions in the serializer are plain `Nat` additions: they cannot
  overflow for archives below 4 GiB, which is a hypothesis of every theorem
  that runs the serializer (beyond it, debug Rust panics on overflow).
* Fallible code returns `Except`/`Option`.  A Rust panic is modelled by
  `Option.none`.  The unbounded recursions of the source
  (`collect_tree_entries` over `forward`/child pointers, `resolve_path`
  over the parent map) are given explicit fuel; the fuel chosen is large
  enough that the model agrees with the source on every input on which the
  source terminates (a terminating traversal never revisits an index, see
  the doc comments at the definitions), and fuel exhaustion corresponds to
  the source looping forever.
-/

/-- Byte `i` of buffer `d` (0 past the end; all uses are bounds-checked). -/
def byteAt (d : List Nat) (i : Nat) : Nat := d.getD i 0

/-- `byteorder::BigEndian::read_u16` of `&d[off..off+2]`. -/
def readU16 (d : List Nat) (off : Nat) : Nat :=
  byteAt d off * 256 + byteAt d (off + 1)

/-- `byteorder::BigEndian::read_u32` of `&d[off..off+4]`. -/
def readU32 (d : List Nat) (off : Nat) : Nat :=
  ((byteAt d off * 256 + byteAt d (off + 1)) * 256 + byteAt d (off + 2)) * 256
    + byteAt d (off + 3)

/-- `u16::to_be_bytes` (the `as u16` cast is the `% 256` on each digit). -/
def u16be (n : Nat) : List Nat := [n / 256 % 256, n % 256]

/-- `u32::to_be_bytes`. -/
def u32be (n : Nat) : List Nat :=
  [n / 16777216 % 256, n / 65536 % 256, n / 256 % 256, n % 256]

/-- ASCII/UTF-8 bytes of a (7-bit) string literal, for readable constants. -/
def ascii (s : String) : List Nat := s.data.map Char.toNat

/-- `BOM_MAGIC`: the bytes of `"BOMStore"`. -/
def BOM_MAGIC : List Nat := ascii "BOMStore"

/-- `TREE_MAGIC`: the bytes of `"tree"`. -/
def TREE_MAGIC : List Nat := ascii "tree"

/-- The error enum `BomError` (names carried as byte lists). -/
inductive BomError where
  | FileTooSmall
  | InvalidMagic
  | InvalidVersion (v : Nat)
  | IndexOutOfBounds
  | VariablesOutOfBounds
  | IndexOutOfRange (i : Nat)
  | TreeNotFound (name : List Nat)
  | InvalidTreeMagic
  | InvalidTreeVersion
  | DataOutOfBounds
deriving DecidableEq, Repr

deriving instance DecidableEq for Except

/-- The read-only archive context `Bom` (fields derived once by `load`). -/
structure Bom where
  data : List Nat
  index_offset : Nat
  index_count : Nat
  variables_offset : Nat
deriving DecidableEq, Repr

/-- A parsed entry of the variables table (`BomVariable`). -/
structure BomVariable where
  name : List Nat
  index : Nat
deriving DecidableEq, Repr

/-- A resolved tree entry (`BomTreeEntry`). -/
structure BomTreeEntry where
  key : List Nat
  value : List Nat
deriving DecidableEq, Repr

/-- `Bom::load`. -/
def Bom.load (data : List Nat) : Except BomError Bom :=
  if data.length < 32 then .error .FileTooSmall
  else if data.take 8 ≠ BOM_MAGIC then .error .InvalidMagic
  else
    let version := readU32 data 8
    if version ≠ 1 then .error (.InvalidVersion version)
    else
      let index_offset := readU32 data 16
      let index_length := readU32 data 20
      if index_offset + 4 > data.length then .error .IndexOutOfBounds
      else if index_offset + index_length > data.length then .error .IndexOutOfBounds
      else
        let variables_offset := readU32 data 24
        if variables_offset + 4 > data.length then .error .VariablesOutOfBounds
        else
          let index_count := readU32 data index_offset
          .ok { data := data, index_offset := index_offset,
                index_count := index_count, variables_offset := variables_offset }

/-- `Bom::index_length` (re-read from the stored buffer, as in the source). -/
def Bom.index_length (bom : Bom) : Nat := readU32 bom.data 20

/-- `Bom::index_get`: bounds-checked random access to block `index`. -/
def Bom.index_get (bom : Bom) (index : Nat) : Option (List Nat) :=
  if index ≥ bom.index_count then none
  else
    let entry_offset := bom.index_offset + 4 + index * 8
    if entry_offset + 8 > bom.data.length then none
    else
      let address := readU32 bom.data entry_offset
      let length := readU32 bom.data (entry_offset + 4)
      if address + length > bom.data.length then none
      else some ((bom.data.drop address).take length)

/-- The body of the `for _ in 0..count` loop of `Bom::variables`; the loop
is bounded by `count`, so `count` itself is the recursion measure. -/
def readVariablesAux (d : List Nat) : Nat → Nat → List BomVariable
  | _, 0 => []
  | offset, n + 1 =>
    if offset + 5 > d.length then []
    else
      let index := readU32 d offset
      let name_len := byteAt d (offset + 4)
      if offset + 5 + name_len > d.length then []
      else
        { name := (d.drop (offset + 5)).take name_len, index := index }
          :: readVariablesAux d (offset + 5 + name_len) n

/-- `Bom::variables` (best-effort: truncates instead of failing). -/
def Bom.variables (bom : Bom) : List BomVariable :=
  if bom.variables_offset + 4 > bom.data.length then []
  else readVariablesAux bom.data (bom.variables_offset + 4)
    (readU32 bom.data bom.variables_offset)

/-- `Bom::variable_get` (first match wins). -/
def Bom.variable_get (bom : Bom) (name : List Nat) : Option Nat :=
  (bom.variables.find? (fun v => v.name == name)).map (fun v => v.index)

/-- The `for i in 0..count` loop of the leaf branch of
`Bom::collect_tree_entries`: decode entry `i` onward, `break`ing (not
failing) when an entry record would overrun the node block. -/
def leafEntriesAux (bom : Bom) (d : List Nat) : Nat → Nat → List BomTreeEntry
  | _, 0 => []
  | i, k + 1 =>
    let idx_offset := 12 + i * 8
    if idx_offset + 8 > d.length then []
    else
      let value_index := readU32 d idx_offset
      let key_index := readU32 d (idx_offset + 4)
      { key := (bom.index_get key_index).getD [],
        value := (bom.index_get value_index).getD [] }
        :: leafEntriesAux bom d (i + 1) k

/-- `Bom::collect_tree_entries`.  The source recursion is unbounded and a
cyclic `forward`/child chain loops forever; here the recursion carries
fuel.  Every recursive call in the source follows a successful
`index_get`, and on a terminating run the visited indices are pairwise
distinct (the traversal is deterministic, so a repeated index loops), and
each is `< index_count`; hence any terminating source run makes at most
`index_count + 1` nested calls and is reproduced exactly by the model with
that much fuel.  Fuel exhaustion (the `0` case) corresponds to source
nontermination. -/
def Bom.collect_tree_entries (bom : Bom) : Nat → Nat → Except BomError (List BomTreeEntry)
  | 0, entry_index => .error (.IndexOutOfRange entry_index)
  | fuel + 1, entry_index =>
    match bom.index_get entry_index with
    | none => .error (.IndexOutOfRange entry_index)
    | some entry_data =>
      if entry_data.length < 12 then .error .DataOutOfBounds
      else
        let is_leaf := readU16 entry_data 0
        let count := readU16 entry_data 2
        let forward := readU32 entry_data 4
        if is_leaf = 0 then
          if 0 < count ∧ 20 ≤ entry_data.length then
            bom.collect_tree_entries fuel (readU32 entry_data 12)
          else .ok []
        else
          let es := leafEntriesAux bom entry_data 0 count
          if forward ≠ 0 then
            match bom.collect_tree_entries fuel forward with
            | .ok more => .ok (es ++ more)
            | .error e => .error e
          else .ok es

/-- `Bom::tree_entries`. -/
def Bom.tree_entries (bom : Bom) (variable_name : List Nat) :
    Except BomError (List BomTreeEntry) :=
  match bom.variable_get variable_name with
  | none => .error (.TreeNotFound variable_name)
  | some tree_index =>
    match bom.index_get tree_index with
    | none => .error (.IndexOutOfRange tree_index)
    | some tree_data =>
      if tree_data.length < 21 then .error .InvalidTreeMagic
      else if tree_data.take 4 ≠ TREE_MAGIC then .error .InvalidTreeMagic
      else if readU32 tree_data 4 ≠ 1 then .error .InvalidTreeVersion
      else bom.collect_tree_entries (bom.index_count + 1) (readU32 tree_data 8)

/-- The writer `BomWriter` (`blocks` slot 0 reserved; `vars` models the
source field `variables`, a keyword in Lean: (name-bytes, block-index)
pairs). -/
structure BomWriter where
  blocks : List (List Nat)
  vars : List (List Nat × Nat)
deriving DecidableEq, Repr

/-- `BomWriter::new`: block 0 is the reserved null block. -/
def BomWriter.new : BomWriter := { blocks := [[]], vars := [] }

/-- `BomWriter::add_block`: returns the index of the pushed block together
with the updated writer (the source mutates `self` and returns the index). -/
def BomWriter.add_block (w : BomWriter) (data : List Nat) : Nat × BomWriter :=
  (w.blocks.length, { w with blocks := w.blocks ++ [data] })

/-- `BomWriter::add_variable`. -/
def BomWriter.add_variable (w : BomWriter) (name : List Nat) (index : Nat) : BomWriter :=
  { w with vars := w.vars ++ [(name, index)] }

/-- `entries.chunks(256)` (`ENTRIES_PER_LEAF = 256`): the empty slice has
no chunks, otherwise the first 256 entries form a chunk and the rest is
chunked recursively. -/
def chunksOf (l : List (List Nat × List Nat)) : List (List (List Nat × List Nat)) :=
  if h : l = [] then []
  else l.take 256 :: chunksOf (l.drop 256)
termination_by l.length
decreasing_by
  simp only [List.length_drop]
  have : 0 < l.length := List.length_pos.mpr h
  omega

/-- The `for (key, value) in chunk` loop inside `BomWriter::build_tree`:
store the value then the key as fresh blocks and append their indices to
the growing `leaf_data`. -/
def addPairBlocks (w : BomWriter) (leaf_data : List Nat) :
    List (List Nat × List Nat) → BomWriter × List Nat
  | [] => (w, leaf_data)
  | (key, value) :: rest =>
    let p := w.add_block value
    let q := p.2.add_block key
    addPairBlocks q.2 (leaf_data ++ u32be p.1 ++ u32be q.1) rest

/-- One iteration of the `for chunk in entries.chunks(..)` loop of
`BomWriter::build_tree`: build the leaf block (header with `is_leaf = 1`,
`count`, `forward = 0` to be patched, unused backward word) and push it. -/
def addLeaf (w : BomWriter) (chunk : List (List Nat × List Nat)) : BomWriter × Nat :=
  let r := addPairBlocks w (u16be 1 ++ u16be chunk.length ++ u32be 0 ++ u32be 0) chunk
  let s := r.1.add_block r.2
  (s.2, s.1)

/-- The whole chunk loop: returns the writer and the `leaf_indices` list. -/
def buildLeaves (w : BomWriter) :
    List (List (List Nat × List Nat)) → BomWriter × List Nat
  | [] => (w, [])
  | c :: cs =>
    let r := addLeaf w c
    let s := buildLeaves r.1 cs
    (s.1, r.2 :: s.2)

/-- One iteration of the forward-patching loop: overwrite bytes `4..8` of
block `leaf_idx` with `next_idx` in big-endian. -/
def patchForward (blocks : List (List Nat)) (leaf_idx next_idx : Nat) : List (List Nat) :=
  blocks.set leaf_idx
    ((blocks.getD leaf_idx []).take 4 ++ u32be next_idx ++ (blocks.getD leaf_idx []).drop 8)

/-- The `for i in 0..leaf_indices.len() - 1` patching loop, expressed on
the successive pairs of `leaf_indices` (for a singleton or empty list the
loop body never runs; the empty case is unreachable, see `build_tree`). -/
def patchForwards (blocks : List (List Nat)) : List Nat → List (List Nat)
  | l₁ :: l₂ :: rest => patchForwards (patchForward blocks l₁ l₂) (l₂ :: rest)
  | _ => blocks

/-- `BomWriter::build_tree`.  Returns `none` when `entries` is empty: the
source then evaluates `0..leaf_indices.len() - 1` whose bound underflows
(debug builds panic on the subtraction; release builds wrap and the body
immediately indexes `leaf_indices[1]` out of bounds), so the source panics
before its own `Empty tree: create an empty leaf` branch (which is
therefore dead code).  For non-empty `entries` it returns the tree-header
block index and the updated writer. -/
def BomWriter.build_tree (w : BomWriter) (entries : List (List Nat × List Nat)) :
    Option (Nat × BomWriter) :=
  let r := buildLeaves w (chunksOf entries)
  match r.2 with
  | [] => none
  | child_index :: _ =>
    let w2 : BomWriter := { r.1 with blocks := patchForwards r.1.blocks r.2 }
    let tree_data := TREE_MAGIC ++ u32be 1 ++ u32be child_index ++ u32be 4096
      ++ u32be entries.length ++ [0]
    let s := w2.add_block tree_data
    some (s.1, s.2)

/-- Total byte size of a block list. -/
def blocksSize : List (List Nat) → Nat
  | [] => 0
  | b :: bs => b.length + blocksSize bs

/-- Concatenation of all blocks, in insertion order. -/
def joinBlocks : List (List Nat) → List Nat
  | [] => []
  | b :: bs => b ++ joinBlocks bs

/-- The `(address, length)` layout loop of `BomWriter::serialize`. -/
def blockOffsets (start : Nat) : List (List Nat) → List (Nat × Nat)
  | [] => []
  | b :: bs => (start, b.length) :: blockOffsets (start + b.length) bs

/-- The index-table bytes: one `(address, length)` big-endian pair per block. -/
def indexBytes : List (Nat × Nat) → List Nat
  | [] => []
  | al :: rest => u32be al.1 ++ u32be al.2 ++ indexBytes rest

/-- The variable records: `(index: u32, name_len: u8, name)` per variable
(`name.len() as u8` truncates, hence the `% 256`). -/
def varRecords : List (List Nat × Nat) → List Nat
  | [] => []
  | nv :: rest => u32be nv.2 ++ [nv.1.length % 256] ++ nv.1 ++ varRecords rest

/-- `BomWriter::serialize`: 32-byte header, the blocks in insertion order,
the index table, the variables table. -/
def BomWriter.serialize (w : BomWriter) : List Nat :=
  let num_blocks := w.blocks.length
  let index_offset := 32 + blocksSize w.blocks
  let index_size := 4 + num_blocks * 8
  let vars_offset := index_offset + index_size
  let vars_data := u32be w.vars.length ++ varRecords w.vars
  BOM_MAGIC ++ u32be 1 ++ u32be num_blocks ++ u32be index_offset ++ u32be index_size
    ++ u32be vars_offset ++ u32be vars_data.length
    ++ joinBlocks w.blocks
    ++ u32be num_blocks ++ indexBytes (blockOffsets 32 w.blocks)
    ++ vars_data

/-- `paths::FileKey` (the name is the UTF-8 byte sequence of the String). -/
structure FileKey where
  parent : Nat
  name : List Nat
deriving DecidableEq, Repr

/-- `paths::FileKey::to_bytes`: parent, name bytes, NUL terminator. -/
def FileKey.to_bytes (k : FileKey) : List Nat := u32be k.parent ++ k.name ++ [0]

/-- `iter().position(|&b| b == 0)` on a byte list. -/
def firstZero : List Nat → Option Nat
  | [] => none
  | b :: rest => if b = 0 then some 0 else (firstZero rest).map (· + 1)

/-- `paths::FileKey::from_bytes`: needs at least 5 bytes; the name stops at
the first NUL (or the end of the buffer). -/
def FileKey.from_bytes (data : List Nat) : Option FileKey :=
  if data.length < 5 then none
  else
    let parent := readU32 data 0
    let name_bytes := data.drop 4
    let name_end := (firstZero name_bytes).getD name_bytes.length
    some { parent := parent, name := name_bytes.take name_end }

/-- The `while let Some((parent, name)) = files.get(&next)` loop of
`paths::resolve_path`, with fuel.  The source loop has no cycle guard and
diverges on a cyclic parent chain; on a terminating run the visited ids
are pairwise distinct (the walk is deterministic), so it takes at most one
step per map entry plus one, and the model below with that fuel agrees
with the source on every terminating input.  The `HashMap` is modelled as
an association list with unique keys (`lookup` = `get`). -/
def resolvePathAux (files : List (Nat × Nat × List Nat)) : Nat → List Nat → Nat → List Nat
  | 0, path, _ => path
  | fuel + 1, path, next =>
    match files.lookup next with
    | none => path
    | some pn => resolvePathAux files fuel (pn.2 ++ [47] ++ path) pn.1

/-- `paths::resolve_path` (`format!("{name}/{path}")` prepends the name and
a `'/'`, byte 47). -/
def resolve_path (file_key : FileKey) (files : List (Nat × Nat × List Nat)) : List Nat :=
  resolvePathAux files (files.length + 1) file_key.name file_key.parent

/-- The list of ancestor names encountered by the `resolve_path` walk, in
walk order (used to state what the walk computes). -/
def ancestorChain (files : List (Nat × Nat × List Nat)) : Nat → Nat → List (List Nat)
  | 0, _ => []
  | fuel + 1, next =>
    match files.lookup next with
    | none => []
    | some pn => pn.2 :: ancestorChain files fuel pn.1

/-! ### Closed forms of the writer layout (proved equal to the writer below) -/

/-- The blocks created by the pair loop of one chunk: value then key, per pair. -/
def pairBlocks : List (List Nat × List Nat) → List (List Nat)
  | [] => []
  | kv :: rest => kv.2 :: kv.1 :: pairBlocks rest

/-- The `(value_index, key_index)` bytes appended to a leaf whose first pair
block lands at block index `p`. -/
def pairIndexBytes (p : Nat) : List (List Nat × List Nat) → List Nat
  | [] => []
  | _ :: rest => u32be p ++ u32be (p + 1) ++ pairIndexBytes (p + 2) rest

/-- A leaf block for chunk `c`, whose pair blocks start at block index `p`,
with forward pointer `forward`. -/
def leafBytes (c : List (List Nat × List Nat)) (p forward : Nat) : List Nat :=
  u16be 1 ++ u16be c.length ++ u32be forward ++ u32be 0 ++ pairIndexBytes p c

/-- Blocks created by the chunk loop before forward-patching, starting at
block index `p`: per chunk, its pair blocks then its (unpatched) leaf. -/
def unpatchedBlocks (p : Nat) : List (List (List Nat × List Nat)) → List (List Nat)
  | [] => []
  | c :: cs =>
    pairBlocks c ++ leafBytes c p 0 :: unpatchedBlocks (p + 2 * c.length + 1) cs

/-- The leaf block indices produced by the chunk loop starting at `p`. -/
def leafPositions (p : Nat) : List (List (List Nat × List Nat)) → List Nat
  | [] => []
  | c :: cs => (p + 2 * c.length) :: leafPositions (p + 2 * c.length + 1) cs

/-- The block index of the first leaf of the chunk list starting at `p`
(0 when there is none — the value the last leaf's forward pointer keeps). -/
def fwdOf (p : Nat) : List (List (List Nat × List Nat)) → Nat
  | [] => 0
  | c :: _ => p + 2 * c.length

/-- Blocks created by the chunk loop after forward-patching: each leaf
points at the next chunk's leaf, the last keeps forward 0. -/
def patchedBlocks (p : Nat) : List (List (List Nat × List Nat)) → List (List Nat)
  | [] => []
  | c :: cs =>
    pairBlocks c ++
      leafBytes c p (fwdOf (p + 2 * c.length + 1) cs)
        :: patchedBlocks (p + 2 * c.length + 1) cs

/-- Number of blocks a chunk list contributes (2 per pair, 1 leaf per chunk). -/
def chunksWeight : List (List (List Nat × List Nat)) → Nat
  | [] => 0
  | c :: cs => 2 * c.length + 1 + chunksWeight cs

/-- The tree-header block for `entries` when the chunk loop started at `p`. -/
def treeHeaderBytes (entries : List (List Nat × List Nat)) (p : Nat) : List Nat :=
  TREE_MAGIC ++ u32be 1 ++ u32be (fwdOf p (chunksOf entries)) ++ u32be 4096
    ++ u32be entries.length ++ [0]

/-- The tree entries a chunk list denotes, in chunk order. -/
def chunkEntries : List (List (List Nat × List Nat)) → List BomTreeEntry
  | [] => []
  | c :: cs => c.map (fun kv => BomTreeEntry.mk kv.1 kv.2) ++ chunkEntries cs

/-- Key/value pairs as tree entries. -/
def asTreeEntries (l : List (List Nat × List Nat)) : List BomTreeEntry :=
  l.map (fun kv => BomTreeEntry.mk kv.1 kv.2)

/-- Total key+value byte size of an entry list (used to bound the archive
size in the round-trip theorems). -/
def sumKV : List (List Nat × List Nat) → Nat
  | [] => 0
  | kv :: rest => kv.1.length + kv.2.length + sumKV rest

/-- Total entry count of a chunk list. -/
def entriesCount : List (List (List Nat × List Nat)) → Nat
  | [] => 0
  | c :: cs => c.length + entriesCount cs

/-- Total key+value byte size of a chunk list. -/
def sumKVChunks : List (List (List Nat × List Nat)) → Nat
  | [] => 0
  | c :: cs => sumKV c + sumKVChunks cs

/-! ### Concrete archives used as witnesses and counterexamples -/

/-- A minimal well-formed archive: empty index table at offset 32, the
variables "table" also read from offset 32 (count 0). -/
def bufEx : List Nat :=
  BOM_MAGIC ++ u32be 1 ++ u32be 0 ++ u32be 32 ++ u32be 4 ++ u32be 32
    ++ u32be 0 ++ u32be 0

/-- `bufEx`, loaded. -/
def bomEx : Bom :=
  { data := bufEx, index_offset := 32, index_count := 0, variables_offset := 32 }

/-- A header identical to `bufEx` except that the index-table count word is
`0xFFFFFFFF`: `load` accepts it without validating the count. -/
def bufHugeCount : List Nat :=
  BOM_MAGIC ++ u32be 1 ++ u32be 0 ++ u32be 32 ++ u32be 4 ++ u32be 32
    ++ u32be 0 ++ u32be 4294967295

/-- `bufHugeCount`, loaded. -/
def bomHugeCount : Bom :=
  { data := bufHugeCount, index_offset := 32, index_count := 4294967295,
    variables_offset := 32 }

/-- A writer whose tree leaf references key/value index 99, which no block
index resolves (the archive has 3 blocks). -/
def wBadKey : BomWriter :=
  { blocks := [[],
      u16be 1 ++ u16be 1 ++ u32be 0 ++ u32be 0 ++ u32be 99 ++ u32be 99,
      TREE_MAGIC ++ u32be 1 ++ u32be 1 ++ u32be 4096 ++ u32be 1 ++ [0]],
    vars := [(ascii "T", 2)] }

/-- A writer whose tree leaf is only the 12-byte node header but declares
`count = 1`, so the single entry record would overrun the node. -/
def wShortLeaf : BomWriter :=
  { blocks := [[],
      u16be 1 ++ u16be 1 ++ u32be 0 ++ u32be 0,
      TREE_MAGIC ++ u32be 1 ++ u32be 1 ++ u32be 4096 ++ u32be 1 ++ [0]],
    vars := [(ascii "T", 2)] }

/-- A writer with two empty blocks and a variable pointing at block index
77, which no index entry resolves. -/
def wBadRoot : BomWriter := { blocks := [[], []], vars := [(ascii "T", 77)] }

/-- `wBadRoot`, serialized and loaded. -/
def bomBadRoot : Bom :=
  { data := wBadRoot.serialize, index_offset := 32, index_count := 2,
    variables_offset := 52 }

/-- A writer with a 1-byte block (shorter than the 12-byte node header). -/
def wTiny : BomWriter := { blocks := [[], [5]], vars := [] }

/-- `wTiny`, serialized and loaded. -/
def bomTiny : Bom :=
  { data := wTiny.serialize, index_offset := 33, index_count := 2,
    variables_offset := 53 }

/-- `wBadKey`, serialized and loaded. -/
def bomBadKey : Bom :=
  { data := wBadKey.serialize, index_offset := 73, index_count := 3,
    variables_offset := 101 }

/-- `wShortLeaf`, serialized and loaded. -/
def bomShortLeaf : Bom :=
  { data := wShortLeaf.serialize, index_offset := 65, index_count := 3,
    variables_offset := 93 }

/-- Byte size of the variable records of `varRecords`. -/
def varsSize : List (List Nat × Nat) → Nat
  | [] => 0
  | nv :: rest => 5 + nv.1.length + varsSize rest

/-- The `Bom` that `load` produces from `serialize w` (proved below). -/
def loadedBom (w : BomWriter) : Bom :=
  { data := w.serialize,
    index_offset := 32 + blocksSize w.blocks,
    index_count := w.blocks.length,
    variables_offset := 36 + blocksSize w.blocks + 8 * w.blocks.length }

/-! ## Byte-extraction lemmas -/

theorem length_u16be (n : Nat) : (u16be n).length = 2 := rfl

theorem length_u32be (n : Nat) : (u32be n).length = 4 := rfl

theorem byteAt_nil (i : Nat) : byteAt [] i = 0 := by cases i <;> rfl

theorem byteAt_cons_succ (a : Nat) (t : List Nat) (i : Nat) :
    byteAt (a :: t) (i + 1) = byteAt t i := rfl

theorem byteAt_drop (d : List Nat) (off k : Nat) :
    byteAt (d.drop off) k = byteAt d (off + k) := by
  induction d generalizing off with
  | nil => simp [byteAt_nil]
  | cons a t ih =>
    cases off with
    | zero => simp
    | succ m =>
      show byteAt (t.drop m) k = byteAt (a :: t) (m + 1 + k)
      rw [ih m]
      have h : m + 1 + k = m + k + 1 := by omega
      rw [h, byteAt_cons_succ]

theorem readU16_drop (d : List Nat) (off : Nat) :
    readU16 (d.drop off) 0 = readU16 d off := by
  simp [readU16, byteAt_drop]

theorem readU32_drop (d : List Nat) (off : Nat) :
    readU32 (d.drop off) 0 = readU32 d off := by
  simp [readU32, byteAt_drop]

theorem readU32_here (n : Nat) (post : List Nat) :
    readU32 (u32be n ++ post) 0 = n % 4294967296 := by
  have h0 : byteAt (u32be n ++ post) 0 = n / 16777216 % 256 := rfl
  have h1 : byteAt (u32be n ++ post) 1 = n / 65536 % 256 := rfl
  have h2 : byteAt (u32be n ++ post) 2 = n / 256 % 256 := rfl
  have h3 : byteAt (u32be n ++ post) 3 = n % 256 := rfl
  simp only [readU32, h0, h1, h2, h3]
  omega

theorem readU16_here (n : Nat) (post : List Nat) :
    readU16 (u16be n ++ post) 0 = n % 65536 := by
  have h0 : byteAt (u16be n ++ post) 0 = n / 256 % 256 := rfl
  have h1 : byteAt (u16be n ++ post) 1 = n % 256 := rfl
  simp only [readU16, h0, h1]
  omega

theorem readU32_at (d : List Nat) (off n : Nat) (post : List Nat)
    (h : d.drop off = u32be n ++ post) : readU32 d off = n % 4294967296 := by
  rw [← readU32_drop, h, readU32_here]

theorem readU16_at (d : List Nat) (off n : Nat) (post : List Nat)
    (h : d.drop off = u16be n ++ post) : readU16 d off = n % 65536 := by
  rw [← readU16_drop, h, readU16_here]

theorem byteAt_at (d : List Nat) (off b : Nat) (post : List Nat)
    (h : d.drop off = b :: post) : byteAt d off = b := by
  have h2 := byteAt_drop d off 0
  rw [h] at h2
  simpa using h2.symm

theorem slice_at (d : List Nat) (a : Nat) (mid post : List Nat)
    (h : d.drop a = mid ++ post) : (d.drop a).take mid.length = mid := by
  rw [h]
  exact List.take_left mid post

theorem drop_pre (pre rest : List Nat) (off : Nat) (h : pre.length = off) :
    (pre ++ rest).drop off = rest := by
  subst h
  exact List.drop_left pre rest

theorem take_pre (pre rest : List Nat) (k : Nat) (h : pre.length = k) :
    (pre ++ rest).take k = pre := by
  subst h
  exact List.take_left pre rest

/-! ## C2, C5, C9, C10 -/

/-- C2: the claim says `build_tree` on an empty entries slice succeeds and
creates one empty leaf.  The code instead panics: with no chunks,
`leaf_indices` is empty and the patching loop bound
`0..leaf_indices.len() - 1` underflows (debug panic; in release the wrap
makes the body index `leaf_indices[1]` out of bounds).  The model returns
`none` (= panic) for every writer, so the empty-leaf branch of the source
is dead code and the documented behaviour never happens. -/
theorem build_tree_empty_panics : ∀ w : BomWriter, w.build_tree [] = none := by
  intro w
  simp [BomWriter.build_tree, chunksOf, buildLeaves]

/-- C5: `load` fails with `FileTooSmall` below 32 bytes; with
`InvalidMagic` when the first 8 bytes are not `"BOMStore"`; with
`InvalidVersion v` when the magic is right but the big-endian u32 at
offset 8 is `v ≠ 1`. -/
theorem load_header_errors :
    (∀ data : List Nat, data.length < 32 → Bom.load data = .error .FileTooSmall) ∧
    (∀ data : List Nat, 32 ≤ data.length → data.take 8 ≠ BOM_MAGIC →
      Bom.load data = .error .InvalidMagic) ∧
    (∀ (data : List Nat) (v : Nat), 32 ≤ data.length → data.take 8 = BOM_MAGIC →
      readU32 data 8 = v → v ≠ 1 → Bom.load data = .error (.InvalidVersion v)) := by
  refine ⟨?_, ?_, ?_⟩
  · intro data h
    simp [Bom.load, h]
  · intro data h1 h2
    simp [Bom.load, Nat.not_lt.mpr h1, h2]
  · intro data v h1 h2 h3 h4
    subst h3
    simp [Bom.load, Nat.not_lt.mpr h1, h2, h4]

/-- Witness for C5 at concrete buffers. -/
theorem load_header_errors_witness :
    Bom.load (List.replicate 31 0) = .error .FileTooSmall ∧
    Bom.load (List.replicate 36 0) = .error .InvalidMagic ∧
    Bom.load (BOM_MAGIC ++ u32be 7 ++ List.replicate 24 0) = .error (.InvalidVersion 7) :=
  ⟨load_header_errors.1 _ (by decide),
   load_header_errors.2.1 _ (by decide) (by decide),
   load_header_errors.2.2 _ 7 (by decide) (by decide) (by decide) (by decide)⟩

/-- C9: `resolve_path` walks the parent chain, prepending each ancestor's
name (found through the id map) and a `'/'` until an id has no entry: it
equals the fold of the ancestor-name chain over the starting name.  In
particular the documented example resolves to `"usr/bin/ls"`. -/
theorem resolve_path_spec :
    (∀ (files : List (Nat × Nat × List Nat)) (fuel : Nat) (path : List Nat) (next : Nat),
      resolvePathAux files fuel path next =
        (ancestorChain files fuel next).foldl (fun p n => n ++ [47] ++ p) path) ∧
    resolve_path ⟨6, ascii "ls"⟩ [(5, (0, ascii "usr")), (6, (5, ascii "bin"))] =
      ascii "usr/bin/ls" := by
  constructor
  · intro files fuel
    induction fuel with
    | zero => intro path next; rfl
    | succ m ih =>
      intro path next
      rw [resolvePathAux, ancestorChain]
      cases h : files.lookup next with
      | none => rfl
      | some pn => simp [ih]
  · decide

/-- C10: decoding an encoded `FileKey` whose name has no NUL byte returns
the same key (side conditions: the parent fits in a u32 and the name bytes
are bytes, which the Rust types enforce). -/
theorem firstZero_of_no_zero (name : List Nat) (h : ∀ b ∈ name, b ≠ 0) :
    firstZero (name ++ [0]) = some name.length := by
  induction name with
  | nil => rfl
  | cons a t ih =>
    have ha : a ≠ 0 := h a (by simp)
    rw [List.cons_append]
    simp only [firstZero, if_neg ha, ih (fun b hb => h b (by simp [hb]))]
    simp [Option.map]

theorem filekey_roundtrip (k : FileKey) (h0 : ∀ b ∈ k.name, b ≠ 0)
    (hp : k.parent < 4294967296) (hb : ∀ b ∈ k.name, b < 256) :
    FileKey.from_bytes k.to_bytes = some k := by
  have hlen : k.to_bytes.length = k.name.length + 5 := by
    simp [FileKey.to_bytes, length_u32be]
    omega
  have hdrop : k.to_bytes.drop 4 = k.name ++ [0] := by
    simp only [FileKey.to_bytes]
    exact drop_pre _ _ _ (length_u32be _)
  have hparent : readU32 k.to_bytes 0 = k.parent := by
    rw [readU32_at k.to_bytes 0 k.parent (k.name ++ [0]) (by simp [FileKey.to_bytes])]
    exact Nat.mod_eq_of_lt hp
  rw [FileKey.from_bytes, if_neg (by omega)]
  simp only [hdrop, firstZero_of_no_zero k.name h0, hparent, Option.getD_some]
  rw [take_pre k.name [0] k.name.length rfl]

/-- Witness for C10 at a concrete key. -/
theorem filekey_roundtrip_witness :
    FileKey.from_bytes (FileKey.to_bytes ⟨7, ascii "ab"⟩) = some ⟨7, ascii "ab"⟩ :=
  filekey_roundtrip ⟨7, ascii "ab"⟩ (by decide) (by decide) (by decide)

/-! ## C3, C4, C6, C7 -/

/-- C3 (amended): traversal fails with `IndexOutOfRange(i)` when the root's
block index or any index a recursive step is entered on (a non-leaf child
index or a leaf's forward pointer) is not resolvable; a leaf entry's
unresolvable key or value index does NOT fail — `unwrap_or(&[])` turns it
into empty bytes (see the counterexample). -/
theorem tree_index_out_of_range :
    (∀ (bom : Bom) (name : List Nat) (ti : Nat),
      bom.variable_get name = some ti → bom.index_get ti = none →
      bom.tree_entries name = .error (.IndexOutOfRange ti)) ∧
    (∀ (bom : Bom) (fuel i : Nat), bom.index_get i = none →
      bom.collect_tree_entries (fuel + 1) i = .error (.IndexOutOfRange i)) := by
  constructor
  · intro bom name ti h1 h2
    simp [Bom.tree_entries, h1, h2]
  · intro bom fuel i h
    simp [Bom.collect_tree_entries, h]

/-- Witness for C3: a variable that points at block index 77 of a 2-block
archive. -/
theorem tree_index_out_of_range_witness :
    bomBadRoot.tree_entries (ascii "T") = .error (.IndexOutOfRange 77) :=
  tree_index_out_of_range.1 bomBadRoot (ascii "T") 77 (by rfl) (by rfl)

/-- Counterexample to C3 as stated: an archive whose only leaf entry
references key and value index 99, which resolves to no block
(`index_get 99 = none`); `tree_entries` nevertheless succeeds, returning
the entry with empty key and value bytes instead of failing with
`IndexOutOfRange(99)`. -/
theorem tree_entries_bad_key_ok :
    Bom.load wBadKey.serialize = .ok bomBadKey ∧
    bomBadKey.index_get 99 = none ∧
    readU32 (u16be 1 ++ u16be 1 ++ u32be 0 ++ u32be 0 ++ u32be 99 ++ u32be 99) 12 = 99 ∧
    bomBadKey.tree_entries (ascii "T") = .ok [⟨[], []⟩] :=
  ⟨by rfl, by rfl, by rfl, by rfl⟩

/-- C4 (amended): `DataOutOfBounds` is raised exactly when a referenced
node block is shorter than the 12-byte node header; a leaf whose declared
count would overrun the node does not fail — decoding `break`s at the
first entry record that does not fit, silently dropping the rest (see the
counterexample). -/
theorem node_data_out_of_bounds :
    (∀ (bom : Bom) (fuel i : Nat) (d : List Nat),
      bom.index_get i = some d → d.length < 12 →
      bom.collect_tree_entries (fuel + 1) i = .error .DataOutOfBounds) ∧
    (∀ (bom : Bom) (d : List Nat) (t k : Nat), d.length < 12 + t * 8 + 8 →
      leafEntriesAux bom d t k = []) := by
  constructor
  · intro bom fuel i d h1 h2
    simp [Bom.collect_tree_entries, h1, h2]
  · intro bom d t k h
    cases k with
    | zero => rfl
    | succ m => simp [leafEntriesAux, h]

/-- Witness for C4: a 1-byte block fails node decoding. -/
theorem node_data_out_of_bounds_witness :
    bomTiny.collect_tree_entries 1 1 = .error .DataOutOfBounds :=
  node_data_out_of_bounds.1 bomTiny 0 1 [5] (by rfl) (by decide)

/-- Counterexample to C4 as stated: a leaf block of exactly the 12 header
bytes declaring `count = 1` (so `12 + 1*8 > 12` overruns); `tree_entries`
returns `ok []` — the oversized count is truncated, not an error. -/
theorem tree_entries_short_leaf_ok :
    Bom.load wShortLeaf.serialize = .ok bomShortLeaf ∧
    bomShortLeaf.index_get 1 = some (u16be 1 ++ u16be 1 ++ u32be 0 ++ u32be 0) ∧
    (u16be 1 ++ u16be 1 ++ u32be 0 ++ u32be 0).length = 12 ∧
    readU16 (u16be 1 ++ u16be 1 ++ u32be 0 ++ u32be 0) 2 = 1 ∧
    bomShortLeaf.tree_entries (ascii "T") = .ok [] :=
  ⟨by rfl, by rfl, by rfl, by rfl, by rfl⟩

/-- C6: `index_get` is defensively bounds-checked: `none` when the index
is not below `index_count`, when the entry record would overrun the
buffer, or when the addressed range would; and any returned slice is the
in-bounds range `[address, address+length)` of the buffer, so it never
extends past `buffer.len()`. -/
theorem index_get_safe (bytes : List Nat) (bom : Bom) (i : Nat)
    (hload : Bom.load bytes = .ok bom) :
    (bom.index_count ≤ i → bom.index_get i = none) ∧
    (bom.data.length < bom.index_offset + 4 + i * 8 + 8 → bom.index_get i = none) ∧
    (bom.data.length < readU32 bom.data (bom.index_offset + 4 + i * 8) +
        readU32 bom.data (bom.index_offset + 4 + i * 8 + 4) → bom.index_get i = none) ∧
    (∀ s, bom.index_get i = some s →
      s = (bom.data.drop (readU32 bom.data (bom.index_offset + 4 + i * 8))).take
            (readU32 bom.data (bom.index_offset + 4 + i * 8 + 4)) ∧
      readU32 bom.data (bom.index_offset + 4 + i * 8) + s.length ≤ bom.data.length) := by
  clear hload
  refine ⟨?_, ?_, ?_, ?_⟩
  · intro h
    simp [Bom.index_get, h]
  · intro h
    simp only [Bom.index_get]
    split_ifs with h1 h2 h3 <;> first | rfl | omega
  · intro h
    simp only [Bom.index_get]
    split_ifs with h1 h2 h3 <;> first | rfl | omega
  · intro s hs
    simp only [Bom.index_get] at hs
    split_ifs at hs with h1 h2 h3 <;> cases hs
    refine ⟨rfl, ?_⟩
    rw [List.length_take, List.length_drop]
    omega

/-- Witness for C6 on a concrete loaded archive. -/
theorem index_get_safe_witness :
    (bomEx.index_count ≤ 0 → bomEx.index_get 0 = none) ∧
    (bomEx.data.length < bomEx.index_offset + 4 + 0 * 8 + 8 → bomEx.index_get 0 = none) ∧
    (bomEx.data.length < readU32 bomEx.data (bomEx.index_offset + 4 + 0 * 8) +
        readU32 bomEx.data (bomEx.index_offset + 4 + 0 * 8 + 4) → bomEx.index_get 0 = none) ∧
    (∀ s, bomEx.index_get 0 = some s →
      s = (bomEx.data.drop (readU32 bomEx.data (bomEx.index_offset + 4 + 0 * 8))).take
            (readU32 bomEx.data (bomEx.index_offset + 4 + 0 * 8 + 4)) ∧
      readU32 bomEx.data (bomEx.index_offset + 4 + 0 * 8) + s.length ≤ bomEx.data.length) :=
  index_get_safe bufEx bomEx 0 (by rfl)

/-- C7 (amended): what `load` actually validates is
`index_offset + 4 ≤ len`, `index_offset + index_length ≤ len` and
`variables_offset + 4 ≤ len`.  It does NOT validate the index-table count
word against anything, so `index_offset + 4 + index_count*8 ≤ len` can
fail on a loaded archive (see the counterexample); `index_get` re-checks
bounds on every access instead. -/
theorem load_offset_invariants (data : List Nat) (bom : Bom)
    (h : Bom.load data = .ok bom) :
    bom.index_offset + 4 ≤ bom.data.length ∧
    bom.index_offset + bom.index_length ≤ bom.data.length ∧
    bom.variables_offset + 4 ≤ bom.data.length := by
  simp only [Bom.load] at h
  split_ifs at h with h1 h2 h3 h4 h5 h6 <;> cases h
  simp only [Bom.index_length]
  exact ⟨by omega, by omega, by omega⟩

/-- Witness for C7 on a concrete loaded archive. -/
theorem load_offset_invariants_witness :
    bomEx.index_offset + 4 ≤ bomEx.data.length ∧
    bomEx.index_offset + bomEx.index_length ≤ bomEx.data.length ∧
    bomEx.variables_offset + 4 ≤ bomEx.data.length :=
  load_offset_invariants bufEx bomEx (by rfl)

/-- Counterexample to C7 as stated: a 36-byte archive whose index-table
count word is `0xFFFFFFFF` loads fine, and
`index_offset + 4 + index_count*8` vastly exceeds the buffer length. -/
theorem load_accepts_huge_count :
    Bom.load bufHugeCount = .ok bomHugeCount ∧
    bufHugeCount.length < bomHugeCount.index_offset + 4 + bomHugeCount.index_count * 8 :=
  ⟨by rfl, by decide⟩

/-! ## Generic drop/length helpers -/

theorem drop_chunk (A rest : List Nat) (off a : Nat) (hA : A.length = a)
    (h : a ≤ off) : (A ++ rest).drop off = rest.drop (off - a) := by
  subst hA
  induction A generalizing off with
  | nil => simp
  | cons x xs ih =>
    cases off with
    | zero => simp at h
    | succ m =>
      have h2 : xs.length ≤ m := by
        simp only [List.length_cons] at h
        omega
      show (xs ++ rest).drop m = rest.drop (m + 1 - (x :: xs).length)
      rw [ih m h2]
      have h3 : m - xs.length = m + 1 - (x :: xs).length := by
        simp only [List.length_cons]
        omega
      rw [h3]

theorem pairBlocks_length (c : List (List Nat × List Nat)) :
    (pairBlocks c).length = 2 * c.length := by
  induction c with
  | nil => rfl
  | cons kv rest ih =>
    simp only [pairBlocks, List.length_cons, ih]
    omega

theorem pairIndexBytes_length (c : List (List Nat × List Nat)) :
    ∀ p, (pairIndexBytes p c).length = 8 * c.length := by
  induction c with
  | nil => intro p; rfl
  | cons kv rest ih =>
    intro p
    simp only [pairIndexBytes, List.length_append, length_u32be, ih, List.length_cons]
    omega

theorem leafBytes_length (c : List (List Nat × List Nat)) (p f : Nat) :
    (leafBytes c p f).length = 12 + 8 * c.length := by
  simp only [leafBytes, List.length_append, length_u16be, length_u32be,
    pairIndexBytes_length]

theorem blocksSize_append (a b : List (List Nat)) :
    blocksSize (a ++ b) = blocksSize a + blocksSize b := by
  induction a with
  | nil => simp [blocksSize]
  | cons x xs ih =>
    show blocksSize (x :: (xs ++ b)) = _
    rw [blocksSize, ih, blocksSize]
    omega

theorem joinBlocks_append (a b : List (List Nat)) :
    joinBlocks (a ++ b) = joinBlocks a ++ joinBlocks b := by
  induction a with
  | nil => rfl
  | cons x xs ih =>
    show joinBlocks (x :: (xs ++ b)) = _
    rw [joinBlocks, ih, joinBlocks, List.append_assoc]

theorem joinBlocks_length (B : List (List Nat)) :
    (joinBlocks B).length = blocksSize B := by
  induction B with
  | nil => rfl
  | cons b bs ih => simp only [joinBlocks, blocksSize, List.length_append, ih]

theorem indexBytes_length (offs : List (Nat × Nat)) :
    (indexBytes offs).length = 8 * offs.length := by
  induction offs with
  | nil => rfl
  | cons al rest ih =>
    simp only [indexBytes, List.length_append, length_u32be, ih, List.length_cons]
    omega

theorem blockOffsets_length (B : List (List Nat)) :
    ∀ s, (blockOffsets s B).length = B.length := by
  induction B with
  | nil => intro s; rfl
  | cons b bs ih => intro s; simp only [blockOffsets, List.length_cons, ih]

theorem varRecords_length (V : List (List Nat × Nat)) :
    (varRecords V).length = varsSize V := by
  induction V with
  | nil => rfl
  | cons nv rest ih =>
    simp only [varRecords, varsSize, List.length_append, length_u32be,
      List.length_cons, List.length_nil, ih]
    try omega

theorem varsSize_ge (V : List (List Nat × Nat)) : 5 * V.length ≤ varsSize V := by
  induction V with
  | nil => simp [varsSize]
  | cons nv rest ih => simp only [varsSize, List.length_cons]; omega

theorem serialize_length (w : BomWriter) :
    w.serialize.length
      = 40 + blocksSize w.blocks + 8 * w.blocks.length + varsSize w.vars := by
  have hm : BOM_MAGIC.length = 8 := rfl
  simp only [BomWriter.serialize, List.length_append, length_u32be, hm,
    joinBlocks_length, indexBytes_length, blockOffsets_length, varRecords_length]
  omega

/-! ## Writer-side closed forms -/

theorem addPairBlocks_spec (c : List (List Nat × List Nat)) :
    ∀ (w : BomWriter) (acc : List Nat),
    addPairBlocks w acc c =
      ({ blocks := w.blocks ++ pairBlocks c, vars := w.vars },
        acc ++ pairIndexBytes w.blocks.length c) := by
  induction c with
  | nil =>
    intro w acc
    simp [addPairBlocks, pairBlocks, pairIndexBytes]
  | cons kv rest ih =>
    intro w acc
    obtain ⟨k, v⟩ := kv
    simp only [addPairBlocks, BomWriter.add_block, ih]
    simp [pairBlocks, pairIndexBytes, List.append_assoc, List.length_append]

theorem addLeaf_spec (w : BomWriter) (c : List (List Nat × List Nat)) :
    addLeaf w c =
      ({ blocks := w.blocks ++ pairBlocks c ++ [leafBytes c w.blocks.length 0],
         vars := w.vars },
        w.blocks.length + 2 * c.length) := by
  simp only [addLeaf, addPairBlocks_spec, BomWriter.add_block]
  simp [leafBytes, pairBlocks_length, List.append_assoc, List.length_append]

theorem buildLeaves_spec (cs : List (List (List Nat × List Nat))) :
    ∀ w : BomWriter,
    buildLeaves w cs =
      ({ blocks := w.blocks ++ unpatchedBlocks w.blocks.length cs, vars := w.vars },
        leafPositions w.blocks.length cs) := by
  induction cs with
  | nil =>
    intro w
    simp [buildLeaves, unpatchedBlocks, leafPositions]
  | cons c rest ih =>
    intro w
    simp only [buildLeaves, addLeaf_spec, ih]
    simp [unpatchedBlocks, leafPositions, List.append_assoc, List.length_append,
      pairBlocks_length]
    rw [Nat.add_assoc]
    exact ⟨rfl, rfl⟩

/-! ## Forward-patching closed form -/

theorem getD_middle (pre post : List (List Nat)) (b : List Nat) :
    (pre ++ b :: post).getD pre.length [] = b := by
  rw [List.getD_append_right _ _ _ _ (le_refl _)]
  simp

theorem set_middle (pre post : List (List Nat)) (b b' : List Nat) :
    (pre ++ b :: post).set pre.length b' = pre ++ b' :: post := by
  simp [List.set_append]

theorem leafBytes_take4 (c : List (List Nat × List Nat)) (p f : Nat) :
    (leafBytes c p f).take 4 = u16be 1 ++ u16be c.length := by
  have h : leafBytes c p f
      = (u16be 1 ++ u16be c.length) ++ (u32be f ++ u32be 0 ++ pairIndexBytes p c) := by
    simp [leafBytes, List.append_assoc]
  rw [h]
  exact take_pre _ _ _ (by simp [length_u16be])

theorem leafBytes_drop8 (c : List (List Nat × List Nat)) (p f : Nat) :
    (leafBytes c p f).drop 8 = u32be 0 ++ pairIndexBytes p c := by
  have h : leafBytes c p f
      = (u16be 1 ++ u16be c.length ++ u32be f) ++ (u32be 0 ++ pairIndexBytes p c) := by
    simp [leafBytes, List.append_assoc]
  rw [h]
  exact drop_pre _ _ _ (by simp [length_u16be, length_u32be])

theorem patchForward_middle (pre post : List (List Nat))
    (c : List (List Nat × List Nat)) (p f n : Nat) :
    patchForward (pre ++ leafBytes c p f :: post) pre.length n
      = pre ++ leafBytes c p n :: post := by
  rw [patchForward, getD_middle, set_middle, leafBytes_take4, leafBytes_drop8]
  simp [leafBytes, List.append_assoc]

theorem patchForwards_cons_cons (blocks : List (List Nat)) (l₁ l₂ : Nat)
    (rest : List Nat) :
    patchForwards blocks (l₁ :: l₂ :: rest)
      = patchForwards (patchForward blocks l₁ l₂) (l₂ :: rest) := rfl

theorem patchForwards_spec (cs : List (List (List Nat × List Nat))) :
    ∀ pre : List (List Nat),
    patchForwards (pre ++ unpatchedBlocks pre.length cs)
        (leafPositions pre.length cs)
      = pre ++ patchedBlocks pre.length cs := by
  induction cs with
  | nil =>
    intro pre
    simp [unpatchedBlocks, leafPositions, patchedBlocks, patchForwards]
  | cons c cs' ih =>
    intro pre
    cases cs' with
    | nil =>
      simp [unpatchedBlocks, leafPositions, patchedBlocks, patchForwards, fwdOf]
    | cons c' cs'' =>
      have hpos : leafPositions pre.length (c :: c' :: cs'')
          = (pre.length + 2 * c.length)
            :: (pre.length + 2 * c.length + 1 + 2 * c'.length)
            :: leafPositions (pre.length + 2 * c.length + 1 + 2 * c'.length + 1) cs''
          := rfl
      have hblocks : pre ++ unpatchedBlocks pre.length (c :: c' :: cs'')
          = (pre ++ pairBlocks c)
            ++ leafBytes c pre.length 0
              :: unpatchedBlocks (pre.length + 2 * c.length + 1) (c' :: cs'') := by
        simp [unpatchedBlocks, List.append_assoc]
      have hx : (pre ++ pairBlocks c).length = pre.length + 2 * c.length := by
        simp [List.length_append, pairBlocks_length]
      rw [hpos, patchForwards_cons_cons, hblocks]
      have hpf := patchForward_middle (pre ++ pairBlocks c)
        (unpatchedBlocks (pre.length + 2 * c.length + 1) (c' :: cs'')) c pre.length 0
        (pre.length + 2 * c.length + 1 + 2 * c'.length)
      rw [hx] at hpf
      rw [hpf]
      have hre : (pre ++ pairBlocks c)
            ++ leafBytes c pre.length (pre.length + 2 * c.length + 1 + 2 * c'.length)
              :: unpatchedBlocks (pre.length + 2 * c.length + 1) (c' :: cs'')
          = (pre ++ pairBlocks c
              ++ [leafBytes c pre.length
                    (pre.length + 2 * c.length + 1 + 2 * c'.length)])
            ++ unpatchedBlocks (pre.length + 2 * c.length + 1) (c' :: cs'') := by
        simp [List.append_assoc]
      have hlen2 : (pre ++ pairBlocks c
          ++ [leafBytes c pre.length
                (pre.length + 2 * c.length + 1 + 2 * c'.length)]).length
          = pre.length + 2 * c.length + 1 := by
        simp [List.length_append, pairBlocks_length]
        omega
      have hstep : (pre.length + 2 * c.length + 1 + 2 * c'.length)
            :: leafPositions (pre.length + 2 * c.length + 1 + 2 * c'.length + 1) cs''
          = leafPositions (pre ++ pairBlocks c
              ++ [leafBytes c pre.length
                    (pre.length + 2 * c.length + 1 + 2 * c'.length)]).length
              (c' :: cs'') := by
        rw [hlen2]
        rfl
      have hun : unpatchedBlocks (pre.length + 2 * c.length + 1) (c' :: cs'')
          = unpatchedBlocks (pre ++ pairBlocks c
              ++ [leafBytes c pre.length
                    (pre.length + 2 * c.length + 1 + 2 * c'.length)]).length
              (c' :: cs'') := by
        rw [hlen2]
      rw [hre, hstep, hun, ih, hlen2]
      simp [patchedBlocks, fwdOf, List.append_assoc]

/-! ## `build_tree` closed form -/

theorem patchedBlocks_length (cs : List (List (List Nat × List Nat))) :
    ∀ p, (patchedBlocks p cs).length = chunksWeight cs := by
  induction cs with
  | nil => intro p; rfl
  | cons c cs' ih =>
    intro p
    simp only [patchedBlocks, chunksWeight, List.length_append, List.length_cons,
      pairBlocks_length, ih]
    omega

theorem chunksOf_cons (l : List (List Nat × List Nat)) (h : l ≠ []) :
    chunksOf l = l.take 256 :: chunksOf (l.drop 256) := by
  rw [chunksOf]
  simp [h]

theorem build_tree_spec (entries : List (List Nat × List Nat)) (h : entries ≠ [])
    (w : BomWriter) :
    w.build_tree entries = some
      (w.blocks.length + chunksWeight (chunksOf entries),
        { blocks := w.blocks ++ patchedBlocks w.blocks.length (chunksOf entries)
            ++ [treeHeaderBytes entries w.blocks.length],
          vars := w.vars }) := by
  obtain ⟨c, cs, hc⟩ : ∃ c cs, chunksOf entries = c :: cs :=
    ⟨_, _, chunksOf_cons entries h⟩
  have hpatch := patchForwards_spec (c :: cs) w.blocks
  simp only [leafPositions] at hpatch
  simp only [BomWriter.build_tree, buildLeaves_spec, hc, leafPositions,
    BomWriter.add_block, hpatch, treeHeaderBytes, fwdOf]
  rw [List.length_append, patchedBlocks_length]

/-! ## Reading the serialized archive -/

theorem length_BOM_MAGIC : BOM_MAGIC.length = 8 := rfl

theorem length_TREE_MAGIC : TREE_MAGIC.length = 4 := rfl

theorem drop_append_le (A rest : List Nat) (k : Nat) (h : k ≤ A.length) :
    (A ++ rest).drop k = A.drop k ++ rest := List.drop_append_of_le_length h

theorem serialize_take8 (w : BomWriter) : w.serialize.take 8 = BOM_MAGIC := by
  simp only [BomWriter.serialize]
  exact take_pre _ _ _ length_BOM_MAGIC

theorem serialize_read8 (w : BomWriter) : readU32 w.serialize 8 = 1 := by
  have h1 : readU32 w.serialize 8 = 1 % 4294967296 := by
    apply readU32_at
    simp only [BomWriter.serialize, List.append_assoc]
    rw [drop_chunk BOM_MAGIC _ 8 8 length_BOM_MAGIC (by omega)]
    norm_num
    rfl
  rw [h1]

theorem serialize_read16 (w : BomWriter)
    (h : 32 + blocksSize w.blocks < 4294967296) :
    readU32 w.serialize 16 = 32 + blocksSize w.blocks := by
  have h1 : readU32 w.serialize 16 = (32 + blocksSize w.blocks) % 4294967296 := by
    apply readU32_at
    simp only [BomWriter.serialize, List.append_assoc]
    rw [drop_chunk BOM_MAGIC _ 16 8 length_BOM_MAGIC (by omega)]
    norm_num
    rw [drop_chunk (u32be 1) _ 8 4 (length_u32be 1) (by omega)]
    norm_num
    rw [drop_chunk (u32be w.blocks.length) _ 4 4 (length_u32be _) (by omega)]
    norm_num
    rfl
  rw [h1, Nat.mod_eq_of_lt h]

theorem serialize_read20 (w : BomWriter)
    (h : 4 + w.blocks.length * 8 < 4294967296) :
    readU32 w.serialize 20 = 4 + w.blocks.length * 8 := by
  have h1 : readU32 w.serialize 20 = (4 + w.blocks.length * 8) % 4294967296 := by
    apply readU32_at
    simp only [BomWriter.serialize, List.append_assoc]
    rw [drop_chunk BOM_MAGIC _ 20 8 length_BOM_MAGIC (by omega)]
    norm_num
    rw [drop_chunk (u32be 1) _ 12 4 (length_u32be 1) (by omega)]
    norm_num
    rw [drop_chunk (u32be w.blocks.length) _ 8 4 (length_u32be _) (by omega)]
    norm_num
    rw [drop_chunk (u32be (32 + blocksSize w.blocks)) _ 4 4 (length_u32be _) (by omega)]
    norm_num
    rfl
  rw [h1, Nat.mod_eq_of_lt h]

theorem serialize_read24 (w : BomWriter)
    (h : 32 + blocksSize w.blocks + (4 + w.blocks.length * 8) < 4294967296) :
    readU32 w.serialize 24
      = 32 + blocksSize w.blocks + (4 + w.blocks.length * 8) := by
  have h1 : readU32 w.serialize 24
      = (32 + blocksSize w.blocks + (4 + w.blocks.length * 8)) % 4294967296 := by
    apply readU32_at
    simp only [BomWriter.serialize, List.append_assoc]
    rw [drop_chunk BOM_MAGIC _ 24 8 length_BOM_MAGIC (by omega)]
    norm_num
    rw [drop_chunk (u32be 1) _ 16 4 (length_u32be 1) (by omega)]
    norm_num
    rw [drop_chunk (u32be w.blocks.length) _ 12 4 (length_u32be _) (by omega)]
    norm_num
    rw [drop_chunk (u32be (32 + blocksSize w.blocks)) _ 8 4 (length_u32be _) (by omega)]
    norm_num
    rw [drop_chunk (u32be (4 + w.blocks.length * 8)) _ 4 4 (length_u32be _) (by omega)]
    norm_num
    rfl
  rw [h1, Nat.mod_eq_of_lt h]

theorem serialize_split32 (w : BomWriter) :
    w.serialize
      = (BOM_MAGIC ++ u32be 1 ++ u32be w.blocks.length
          ++ u32be (32 + blocksSize w.blocks) ++ u32be (4 + w.blocks.length * 8)
          ++ u32be (32 + blocksSize w.blocks + (4 + w.blocks.length * 8))
          ++ u32be (u32be w.vars.length ++ varRecords w.vars).length)
        ++ (joinBlocks w.blocks
          ++ (u32be w.blocks.length
            ++ (indexBytes (blockOffsets 32 w.blocks)
              ++ (u32be w.vars.length ++ varRecords w.vars)))) := by
  simp [BomWriter.serialize, List.append_assoc]

theorem header32_length (w : BomWriter) :
    (BOM_MAGIC ++ u32be 1 ++ u32be w.blocks.length
      ++ u32be (32 + blocksSize w.blocks) ++ u32be (4 + w.blocks.length * 8)
      ++ u32be (32 + blocksSize w.blocks + (4 + w.blocks.length * 8))
      ++ u32be (u32be w.vars.length ++ varRecords w.vars).length).length = 32 := by
  simp [List.length_append, length_u32be, length_BOM_MAGIC]

theorem serialize_drop32 (w : BomWriter) (k : Nat)
    (hk : k ≤ blocksSize w.blocks) :
    w.serialize.drop (32 + k)
      = (joinBlocks w.blocks).drop k
        ++ (u32be w.blocks.length
          ++ (indexBytes (blockOffsets 32 w.blocks)
            ++ (u32be w.vars.length ++ varRecords w.vars))) := by
  rw [serialize_split32, drop_chunk _ _ (32 + k) 32 (header32_length w) (by omega)]
  have h1 : 32 + k - 32 = k := by omega
  rw [h1, drop_append_le _ _ k (by rw [joinBlocks_length]; exact hk)]

theorem serialize_dropCount (w : BomWriter) :
    w.serialize.drop (32 + blocksSize w.blocks)
      = u32be w.blocks.length
        ++ (indexBytes (blockOffsets 32 w.blocks)
          ++ (u32be w.vars.length ++ varRecords w.vars)) := by
  have h := serialize_drop32 w (blocksSize w.blocks) (le_refl _)
  have h2 : (joinBlocks w.blocks).drop (blocksSize w.blocks) = [] := by
    rw [← joinBlocks_length, List.drop_length]
  rw [h2] at h
  simpa using h

theorem serialize_readIO (w : BomWriter) (h : w.blocks.length < 4294967296) :
    readU32 w.serialize (32 + blocksSize w.blocks) = w.blocks.length := by
  have h1 : readU32 w.serialize (32 + blocksSize w.blocks)
      = w.blocks.length % 4294967296 :=
    readU32_at _ _ _ _ (serialize_dropCount w)
  rw [h1, Nat.mod_eq_of_lt h]

theorem serialize_dropIdx (w : BomWriter) (k : Nat)
    (hk : k ≤ 8 * w.blocks.length) :
    w.serialize.drop (32 + blocksSize w.blocks + 4 + k)
      = (indexBytes (blockOffsets 32 w.blocks)).drop k
        ++ (u32be w.vars.length ++ varRecords w.vars) := by
  have h3 : w.serialize.drop (32 + blocksSize w.blocks + 4 + k)
      = (w.serialize.drop (32 + blocksSize w.blocks)).drop (4 + k) := by
    rw [List.drop_drop]
    congr 1
    omega
  rw [h3, serialize_dropCount, drop_chunk (u32be w.blocks.length) _ (4 + k) 4
    (length_u32be _) (by omega)]
  have h4 : 4 + k - 4 = k := by omega
  rw [h4, drop_append_le _ _ k
    (by rw [indexBytes_length, blockOffsets_length]; omega)]

theorem blockOffsets_getD (B : List (List Nat)) :
    ∀ i s, i < B.length →
    (blockOffsets s B).getD i (0, 0)
      = (s + blocksSize (B.take i), (B.getD i []).length) := by
  induction B with
  | nil =>
    intro i s h
    simp at h
  | cons b bs ih =>
    intro i s h
    cases i with
    | zero => simp [blockOffsets, blocksSize]
    | succ j =>
      have hj : j < bs.length := by simpa using h
      show (blockOffsets (s + b.length) bs).getD j (0, 0) = _
      rw [ih j (s + b.length) hj]
      have ht : (b :: bs).take (j + 1) = b :: bs.take j := rfl
      rw [ht]
      show _ = (s + (b.length + blocksSize (bs.take j)), (bs.getD j []).length)
      rw [Prod.mk.injEq]
      exact ⟨by omega, rfl⟩

theorem joinBlocks_split (B : List (List Nat)) :
    ∀ i, i < B.length →
    joinBlocks B
      = joinBlocks (B.take i) ++ (B.getD i [] ++ joinBlocks (B.drop (i + 1))) := by
  induction B with
  | nil =>
    intro i h
    simp at h
  | cons b bs ih =>
    intro i h
    cases i with
    | zero => simp [joinBlocks]
    | succ j =>
      have hj : j < bs.length := by simpa using h
      show b ++ joinBlocks bs = joinBlocks (b :: bs.take j) ++ _
      rw [ih j hj, joinBlocks, List.append_assoc]
      simp

theorem blocksSize_take_le (B : List (List Nat)) (i : Nat) (h : i < B.length) :
    blocksSize (B.take i) + (B.getD i []).length ≤ blocksSize B := by
  have h2 := congrArg List.length (joinBlocks_split B i h)
  simp only [joinBlocks_length, List.length_append] at h2
  omega

theorem indexBytes_drop_of (offs : List (Nat × Nat)) :
    ∀ i, i < offs.length →
    (indexBytes offs).drop (i * 8)
      = u32be (offs.getD i (0, 0)).1
        ++ (u32be (offs.getD i (0, 0)).2 ++ indexBytes (offs.drop (i + 1))) := by
  induction offs with
  | nil =>
    intro i h
    simp at h
  | cons al rest ih =>
    intro i h
    cases i with
    | zero => simp [indexBytes, List.append_assoc]
    | succ j =>
      have hj : j < rest.length := by simpa using h
      have hsh : indexBytes (al :: rest)
          = u32be al.1 ++ (u32be al.2 ++ indexBytes rest) := by
        simp [indexBytes, List.append_assoc]
      rw [hsh, drop_chunk (u32be al.1) _ ((j + 1) * 8) 4 (length_u32be _) (by omega),
        drop_chunk (u32be al.2) _ ((j + 1) * 8 - 4) 4 (length_u32be _) (by omega)]
      have harith : (j + 1) * 8 - 4 - 4 = j * 8 := by omega
      rw [harith, ih j hj]
      rfl

theorem load_serialize (w : BomWriter)
    (hfit : w.serialize.length < 4294967296) :
    Bom.load w.serialize = .ok (loadedBom w) := by
  have hlen := serialize_length w
  simp only [Bom.load, serialize_take8, serialize_read8,
    serialize_read16 w (by omega), serialize_read20 w (by omega),
    serialize_read24 w (by omega), serialize_readIO w (by omega)]
  rw [if_neg (by omega), if_neg (by simp), if_neg (by simp), if_neg (by omega),
    if_neg (by omega), if_neg (by omega)]
  simp only [loadedBom, Except.ok.injEq, Bom.mk.injEq]
  simp only [true_and, and_true, eq_self_iff_true]
  omega

theorem index_get_serialize (w : BomWriter)
    (hfit : w.serialize.length < 4294967296)
    (i : Nat) (hi : i < w.blocks.length) :
    (loadedBom w).index_get i = some (w.blocks.getD i []) := by
  have hlen := serialize_length w
  have hsz := blocksSize_take_le w.blocks i hi
  have haddr : readU32 w.serialize (32 + blocksSize w.blocks + 4 + i * 8)
      = 32 + blocksSize (w.blocks.take i) := by
    have h1 : readU32 w.serialize (32 + blocksSize w.blocks + 4 + i * 8)
        = (32 + blocksSize (w.blocks.take i)) % 4294967296 := by
      apply readU32_at
      rw [serialize_dropIdx w (i * 8) (by omega),
        indexBytes_drop_of (blockOffsets 32 w.blocks) i
          (by rw [blockOffsets_length]; exact hi),
        blockOffsets_getD w.blocks i 32 hi]
      simp [List.append_assoc]
      rfl
    rw [h1, Nat.mod_eq_of_lt (by omega)]
  have hlength : readU32 w.serialize (32 + blocksSize w.blocks + 4 + i * 8 + 4)
      = (w.blocks.getD i []).length := by
    have h1 : readU32 w.serialize (32 + blocksSize w.blocks + 4 + i * 8 + 4)
        = (w.blocks.getD i []).length % 4294967296 := by
      apply readU32_at
      have h2 : 32 + blocksSize w.blocks + 4 + i * 8 + 4
          = 32 + blocksSize w.blocks + 4 + (i * 8 + 4) := by omega
      rw [h2, serialize_dropIdx w (i * 8 + 4) (by omega)]
      have h3 : (indexBytes (blockOffsets 32 w.blocks)).drop (i * 8 + 4)
          = ((indexBytes (blockOffsets 32 w.blocks)).drop (i * 8)).drop 4 := by
        rw [List.drop_drop]
        try congr 1
        try omega
      rw [h3, indexBytes_drop_of (blockOffsets 32 w.blocks) i
          (by rw [blockOffsets_length]; exact hi),
        blockOffsets_getD w.blocks i 32 hi,
        drop_chunk (u32be (32 + blocksSize (List.take i w.blocks))) _ 4 4
          (length_u32be _) (by omega)]
      norm_num
      rfl
    rw [h1, Nat.mod_eq_of_lt (by omega)]
  have hslice : w.serialize.drop (32 + blocksSize (w.blocks.take i))
      = w.blocks.getD i []
        ++ (joinBlocks (w.blocks.drop (i + 1))
          ++ (u32be w.blocks.length
            ++ (indexBytes (blockOffsets 32 w.blocks)
              ++ (u32be w.vars.length ++ varRecords w.vars)))) := by
    rw [serialize_drop32 w (blocksSize (w.blocks.take i)) (by omega),
      joinBlocks_split w.blocks i hi,
      drop_chunk (joinBlocks (w.blocks.take i)) _ (blocksSize (w.blocks.take i))
        (blocksSize (w.blocks.take i)) (joinBlocks_length _) (le_refl _)]
    simp [List.append_assoc]
  simp only [Bom.index_get, loadedBom]
  rw [if_neg (by omega), if_neg (by omega), haddr, hlength, if_neg (by omega)]
  rw [hslice, take_pre _ _ _ rfl]

theorem serialize_dropVars (w : BomWriter) :
    w.serialize.drop (32 + blocksSize w.blocks + 4 + 8 * w.blocks.length)
      = u32be w.vars.length ++ varRecords w.vars := by
  have h := serialize_dropIdx w (8 * w.blocks.length) (le_refl _)
  have h2 : (indexBytes (blockOffsets 32 w.blocks)).drop (8 * w.blocks.length)
      = [] := by
    rw [← List.drop_length (indexBytes (blockOffsets 32 w.blocks))]
    congr 1
    rw [indexBytes_length, blockOffsets_length]
  rw [h2] at h
  simpa using h

theorem readVariablesAux_spec (V' : List (List Nat × Nat)) :
    ∀ (pre post : List Nat),
    (∀ nv ∈ V', nv.1.length < 256 ∧ nv.2 < 4294967296) →
    readVariablesAux (pre ++ (varRecords V' ++ post)) pre.length V'.length
      = V'.map (fun nv => BomVariable.mk nv.1 nv.2) := by
  induction V' with
  | nil =>
    intro pre post hv
    rfl
  | cons nv rest ih =>
    intro pre post hv
    obtain ⟨name, index⟩ := nv
    have hname : name.length < 256 := (hv (name, index) (by simp)).1
    have hidx : index < 4294967296 := (hv (name, index) (by simp)).2
    have hd : pre ++ (varRecords ((name, index) :: rest) ++ post)
        = pre ++ (u32be index
            ++ ((name.length % 256) :: (name ++ (varRecords rest ++ post)))) := by
      simp [varRecords, List.append_assoc]
    have hlen : (pre ++ (varRecords ((name, index) :: rest) ++ post)).length
        = pre.length + 5 + name.length + varsSize rest + post.length := by
      simp [List.length_append, varRecords_length, varsSize]
      omega
    have hidxread : readU32 (pre ++ (varRecords ((name, index) :: rest) ++ post))
        pre.length = index := by
      have h1 : readU32 (pre ++ (varRecords ((name, index) :: rest) ++ post))
          pre.length = index % 4294967296 := by
        apply readU32_at
        rw [hd]
        rw [drop_pre pre _ pre.length rfl]
      rw [h1, Nat.mod_eq_of_lt hidx]
    have hnl : byteAt (pre ++ (varRecords ((name, index) :: rest) ++ post))
        (pre.length + 4) = name.length := by
      have h1 : byteAt (pre ++ (varRecords ((name, index) :: rest) ++ post))
          (pre.length + 4) = name.length % 256 := by
        apply byteAt_at
        rw [hd]
        have h2 : pre ++ (u32be index
              ++ ((name.length % 256) :: (name ++ (varRecords rest ++ post))))
            = (pre ++ u32be index)
              ++ ((name.length % 256) :: (name ++ (varRecords rest ++ post))) := by
          simp [List.append_assoc]
        rw [h2]
        exact drop_pre _ _ _ (by simp [length_u32be])
      rw [h1, Nat.mod_eq_of_lt hname]
    have hdropname : (pre ++ (varRecords ((name, index) :: rest) ++ post)).drop
        (pre.length + 5) = name ++ (varRecords rest ++ post) := by
      rw [hd]
      have h2 : pre ++ (u32be index
            ++ ((name.length % 256) :: (name ++ (varRecords rest ++ post))))
          = (pre ++ u32be index ++ [name.length % 256])
            ++ (name ++ (varRecords rest ++ post)) := by
        simp [List.append_assoc]
      rw [h2]
      exact drop_pre _ _ _ (by simp [length_u32be])
    show readVariablesAux _ pre.length (rest.length + 1) = _
    rw [readVariablesAux]
    rw [if_neg (by omega), hidxread, hnl, if_neg (by omega), hdropname,
      take_pre name _ name.length rfl]
    have h3 : pre.length + 5 + name.length
        = (pre ++ u32be index ++ [name.length % 256] ++ name).length := by
      simp [List.length_append, length_u32be]
      omega
    have h4 : pre ++ (varRecords ((name, index) :: rest) ++ post)
        = (pre ++ u32be index ++ [name.length % 256] ++ name)
          ++ (varRecords rest ++ post) := by
      simp [varRecords, List.append_assoc]
    rw [h3, h4, ih _ post (fun x hx => hv x (by simp [hx]))]
    rfl

theorem variables_serialize (w : BomWriter)
    (hfit : w.serialize.length < 4294967296)
    (hv : ∀ nv ∈ w.vars, nv.1.length < 256 ∧ nv.2 < 4294967296) :
    (loadedBom w).variables = w.vars.map (fun nv => BomVariable.mk nv.1 nv.2) := by
  have hlen := serialize_length w
  have hvs := varsSize_ge w.vars
  have hcount : readU32 w.serialize
      (36 + blocksSize w.blocks + 8 * w.blocks.length) = w.vars.length := by
    have h1 : readU32 w.serialize
        (36 + blocksSize w.blocks + 8 * w.blocks.length)
        = w.vars.length % 4294967296 := by
      apply readU32_at
      have h2 : 36 + blocksSize w.blocks + 8 * w.blocks.length
          = 32 + blocksSize w.blocks + 4 + 8 * w.blocks.length := by omega
      rw [h2, serialize_dropVars]
    rw [h1, Nat.mod_eq_of_lt (by omega)]
  have hrecs : w.serialize
      = (w.serialize.take (40 + blocksSize w.blocks + 8 * w.blocks.length))
        ++ (varRecords w.vars ++ []) := by
    have h2 : 40 + blocksSize w.blocks + 8 * w.blocks.length
        = (32 + blocksSize w.blocks + 4 + 8 * w.blocks.length) + 4 := by omega
    have h3 : w.serialize.drop (40 + blocksSize w.blocks + 8 * w.blocks.length)
        = varRecords w.vars := by
      have h4 : w.serialize.drop (40 + blocksSize w.blocks + 8 * w.blocks.length)
          = (w.serialize.drop
              (32 + blocksSize w.blocks + 4 + 8 * w.blocks.length)).drop 4 := by
        rw [List.drop_drop]
        try congr 1
        try omega
      rw [h4, serialize_dropVars, drop_chunk (u32be w.vars.length) _ 4 4
        (length_u32be _) (by omega)]
      norm_num
    rw [List.append_nil, ← h3, List.take_append_drop]
  have htl : (w.serialize.take
      (40 + blocksSize w.blocks + 8 * w.blocks.length)).length
      = 40 + blocksSize w.blocks + 8 * w.blocks.length := by
    rw [List.length_take]
    omega
  simp only [Bom.variables, loadedBom]
  rw [if_neg (by omega), hcount]
  have h5 : 36 + blocksSize w.blocks + 8 * w.blocks.length + 4
      = 40 + blocksSize w.blocks + 8 * w.blocks.length := by omega
  rw [h5]
  conv_lhs => rw [hrecs]
  have hspec := readVariablesAux_spec w.vars
    (w.serialize.take (40 + blocksSize w.blocks + 8 * w.blocks.length)) [] hv
  rw [htl] at hspec
  exact hspec

/-! ## Reading back the tree -/

theorem pairBlocks_getD (c : List (List Nat × List Nat)) :
    ∀ s, s < c.length →
    (pairBlocks c).getD (2 * s) [] = (c.getD s ([], [])).2 ∧
    (pairBlocks c).getD (2 * s + 1) [] = (c.getD s ([], [])).1 := by
  induction c with
  | nil =>
    intro s h
    simp at h
  | cons kv rest ih =>
    intro s h
    cases s with
    | zero => exact ⟨rfl, rfl⟩
    | succ u =>
      have hu := ih u (by simpa using h)
      have h1 : 2 * (u + 1) = 2 * u + 1 + 1 := by omega
      constructor
      · rw [h1]
        show (pairBlocks rest).getD (2 * u) [] = _
        exact hu.1
      · rw [h1]
        show (pairBlocks rest).getD (2 * u + 1) [] = _
        exact hu.2

theorem leafEntriesAux_spec (bom : Bom) (c' : List (List Nat × List Nat)) :
    ∀ (t q : Nat) (pre : List Nat),
    pre.length = 12 + t * 8 →
    (∀ s, s < c'.length →
      bom.index_get (q + 2 * s) = some (c'.getD s ([], [])).2 ∧
      bom.index_get (q + 2 * s + 1) = some (c'.getD s ([], [])).1) →
    q + 2 * c'.length < 4294967296 →
    leafEntriesAux bom (pre ++ pairIndexBytes q c') t c'.length
      = c'.map (fun kv => BomTreeEntry.mk kv.1 kv.2) := by
  induction c' with
  | nil =>
    intro t q pre hpre hidx hq
    rfl
  | cons kv rest ih =>
    intro t q pre hpre hidx hq
    obtain ⟨k, v⟩ := kv
    simp only [List.length_cons] at hq
    have hX : pairIndexBytes q ((k, v) :: rest)
        = u32be q ++ (u32be (q + 1) ++ pairIndexBytes (q + 2) rest) := by
      simp [pairIndexBytes, List.append_assoc]
    have hlend : (pre ++ pairIndexBytes q ((k, v) :: rest)).length
        = pre.length + 8 * (rest.length + 1) := by
      simp [List.length_append, pairIndexBytes_length]
    have hval : readU32 (pre ++ pairIndexBytes q ((k, v) :: rest)) (12 + t * 8)
        = q := by
      have h1 : readU32 (pre ++ pairIndexBytes q ((k, v) :: rest)) (12 + t * 8)
          = q % 4294967296 := by
        apply readU32_at
        rw [hX]
        exact drop_pre _ _ _ hpre
      rw [h1, Nat.mod_eq_of_lt (by omega)]
    have hkey : readU32 (pre ++ pairIndexBytes q ((k, v) :: rest))
        (12 + t * 8 + 4) = q + 1 := by
      have h1 : readU32 (pre ++ pairIndexBytes q ((k, v) :: rest))
          (12 + t * 8 + 4) = (q + 1) % 4294967296 := by
        apply readU32_at
        have h2 : pre ++ pairIndexBytes q ((k, v) :: rest)
            = (pre ++ u32be q)
              ++ (u32be (q + 1) ++ pairIndexBytes (q + 2) rest) := by
          rw [hX]
          simp [List.append_assoc]
        rw [h2]
        exact drop_pre _ _ _ (by simp [length_u32be, hpre, Nat.add_comm])
      have hlt : q + 1 < 4294967296 := by omega
      rw [h1, Nat.mod_eq_of_lt hlt]
    have hv0 := hidx 0 (by simp)
    simp only [Nat.mul_zero, Nat.add_zero] at hv0
    have hre : pre ++ pairIndexBytes q ((k, v) :: rest)
        = (pre ++ u32be q ++ u32be (q + 1)) ++ pairIndexBytes (q + 2) rest := by
      rw [hX]
      simp [List.append_assoc]
    have hlen' : (pre ++ u32be q ++ u32be (q + 1)).length = 12 + (t + 1) * 8 := by
      simp [List.length_append, length_u32be, hpre]
      omega
    have hidx' : ∀ s, s < rest.length →
        bom.index_get (q + 2 + 2 * s) = some (rest.getD s ([], [])).2 ∧
        bom.index_get (q + 2 + 2 * s + 1) = some (rest.getD s ([], [])).1 := by
      intro s hs
      have h3 := hidx (s + 1) (by simpa using hs)
      have h4 : q + 2 * (s + 1) = q + 2 + 2 * s := by omega
      rw [h4] at h3
      exact h3
    show leafEntriesAux bom _ t (rest.length + 1) = _
    rw [leafEntriesAux]
    rw [if_neg (by omega), hval, hkey]
    simp only [hv0.1, hv0.2, Option.getD_some, List.getD_cons_zero]
    conv_lhs => rw [hre]
    rw [ih (t + 1) (q + 2) _ hlen' hidx' (by omega)]
    rfl

theorem leafBytes_as_pre (c : List (List Nat × List Nat)) (p f : Nat) :
    leafBytes c p f
      = (u16be 1 ++ u16be c.length ++ u32be f ++ u32be 0) ++ pairIndexBytes p c := by
  simp [leafBytes, List.append_assoc]

theorem leafBytes_read_isleaf (c : List (List Nat × List Nat)) (p f : Nat) :
    readU16 (leafBytes c p f) 0 = 1 := by
  have h1 : readU16 (leafBytes c p f) 0 = 1 % 65536 := by
    apply readU16_at
    simp only [leafBytes, List.append_assoc, List.drop_zero]
    rfl
  rw [h1]

theorem leafBytes_read_count (c : List (List Nat × List Nat)) (p f : Nat)
    (h : c.length < 65536) : readU16 (leafBytes c p f) 2 = c.length := by
  have h1 : readU16 (leafBytes c p f) 2 = c.length % 65536 := by
    apply readU16_at
    have h2 : leafBytes c p f
        = u16be 1 ++ (u16be c.length ++ (u32be f ++ (u32be 0 ++ pairIndexBytes p c))) := by
      simp [leafBytes, List.append_assoc]
    rw [h2]
    exact drop_pre _ _ _ (length_u16be 1)
  rw [h1, Nat.mod_eq_of_lt h]

theorem leafBytes_read_forward (c : List (List Nat × List Nat)) (p f : Nat)
    (h : f < 4294967296) : readU32 (leafBytes c p f) 4 = f := by
  have h1 : readU32 (leafBytes c p f) 4 = f % 4294967296 := by
    apply readU32_at
    have h2 : leafBytes c p f
        = (u16be 1 ++ u16be c.length)
          ++ (u32be f ++ (u32be 0 ++ pairIndexBytes p c)) := by
      simp [leafBytes, List.append_assoc]
    rw [h2]
    exact drop_pre _ _ _ (by simp [length_u16be])
  rw [h1, Nat.mod_eq_of_lt h]

theorem patchedBlocks_getD_leaf (c : List (List Nat × List Nat))
    (cs' : List (List (List Nat × List Nat))) (p : Nat) :
    (patchedBlocks p (c :: cs')).getD (2 * c.length) []
      = leafBytes c p (fwdOf (p + 2 * c.length + 1) cs') := by
  have h := getD_middle (pairBlocks c) (patchedBlocks (p + 2 * c.length + 1) cs')
    (leafBytes c p (fwdOf (p + 2 * c.length + 1) cs'))
  rw [pairBlocks_length] at h
  exact h

theorem patchedBlocks_getD_pair (c : List (List Nat × List Nat))
    (cs' : List (List (List Nat × List Nat))) (p : Nat) (s : Nat)
    (hs : s < c.length) :
    (patchedBlocks p (c :: cs')).getD (2 * s) [] = (c.getD s ([], [])).2 ∧
    (patchedBlocks p (c :: cs')).getD (2 * s + 1) [] = (c.getD s ([], [])).1 := by
  have hp := pairBlocks_getD c s hs
  constructor
  · rw [patchedBlocks, List.getD_append _ _ _ _ (by rw [pairBlocks_length]; omega)]
    exact hp.1
  · rw [patchedBlocks, List.getD_append _ _ _ _ (by rw [pairBlocks_length]; omega)]
    exact hp.2

theorem patchedBlocks_getD_rest (c : List (List Nat × List Nat))
    (cs' : List (List (List Nat × List Nat))) (p : Nat) (j : Nat) :
    (patchedBlocks p (c :: cs')).getD (2 * c.length + 1 + j) []
      = (patchedBlocks (p + 2 * c.length + 1) cs').getD j [] := by
  rw [patchedBlocks, List.getD_append_right _ _ _ _ (by rw [pairBlocks_length]; omega)]
  rw [pairBlocks_length]
  have h : 2 * c.length + 1 + j - 2 * c.length = j + 1 := by omega
  rw [h]
  rfl

theorem fwdOf_le (p : Nat) (cs : List (List (List Nat × List Nat))) :
    fwdOf p cs ≤ p + chunksWeight cs := by
  cases cs with
  | nil => simp [fwdOf]
  | cons c cs' => simp [fwdOf, chunksWeight]; omega

theorem collect_chain (cs : List (List (List Nat × List Nat))) :
    ∀ (bom : Bom) (p fuel : Nat),
    cs ≠ [] →
    cs.length ≤ fuel →
    (∀ c ∈ cs, c.length ≤ 256) →
    1 ≤ p →
    p + chunksWeight cs < 4294967296 →
    (∀ j, j < chunksWeight cs →
      bom.index_get (p + j) = some ((patchedBlocks p cs).getD j [])) →
    bom.collect_tree_entries fuel (fwdOf p cs) = .ok (chunkEntries cs) := by
  induction cs with
  | nil =>
    intro bom p fuel hne
    exact absurd rfl hne
  | cons c cs' ih =>
    intro bom p fuel hne hfuel hsz hp hfit hreg
    obtain ⟨fuel', rfl⟩ : ∃ f', fuel = f' + 1 := by
      refine ⟨fuel - 1, ?_⟩
      simp only [List.length_cons] at hfuel
      omega
    have hw : chunksWeight (c :: cs') = 2 * c.length + 1 + chunksWeight cs' := rfl
    have hclen : c.length ≤ 256 := hsz c (by simp)
    have hfle := fwdOf_le (p + 2 * c.length + 1) cs'
    have hwle : chunksWeight cs' ≤ chunksWeight (c :: cs') := by rw [hw]; omega
    have hleafidx : bom.index_get (p + 2 * c.length)
        = some (leafBytes c p (fwdOf (p + 2 * c.length + 1) cs')) := by
      have h := hreg (2 * c.length) (by rw [hw]; omega)
      rw [h, patchedBlocks_getD_leaf]
    have hes : leafEntriesAux bom
        (leafBytes c p (fwdOf (p + 2 * c.length + 1) cs')) 0 c.length
        = c.map (fun kv => BomTreeEntry.mk kv.1 kv.2) := by
      rw [leafBytes_as_pre]
      refine leafEntriesAux_spec bom c 0 p _ (by simp [length_u16be, length_u32be]) ?_
        (by omega)
      intro s hs
      have h1 := hreg (2 * s) (by rw [hw]; omega)
      have h2 := hreg (2 * s + 1) (by rw [hw]; omega)
      have h3 := patchedBlocks_getD_pair c cs' p s hs
      constructor
      · rw [h1, h3.1]
      · have h4 : p + (2 * s + 1) = p + 2 * s + 1 := by omega
        rw [h4] at h2
        rw [h2, h3.2]
    have hfwdkind : fwdOf p (c :: cs') = p + 2 * c.length := rfl
    rw [hfwdkind]
    simp only [Bom.collect_tree_entries, hleafidx]
    rw [if_neg (by rw [leafBytes_length]; omega)]
    rw [leafBytes_read_isleaf, leafBytes_read_count c p _ (by omega),
      leafBytes_read_forward c p _ (by omega)]
    rw [if_neg (by omega), hes]
    cases cs' with
    | nil =>
      rw [if_neg (by simp [fwdOf])]
      simp [chunkEntries]
    | cons c'' cs'' =>
      have hfw2 : fwdOf (p + 2 * c.length + 1) (c'' :: cs'')
          = p + 2 * c.length + 1 + 2 * c''.length := rfl
      rw [if_pos (by rw [hfw2]; omega)]
      have hih := ih bom (p + 2 * c.length + 1) fuel' (by simp)
        (by simp only [List.length_cons] at hfuel ⊢; omega)
        (fun x hx => hsz x (by simp [hx]))
        (by omega)
        (by rw [hw] at hfit; omega)
        ?_
      · rw [hih]
        simp [chunkEntries]
      · intro j hj
        have h5 := hreg (2 * c.length + 1 + j) (by rw [hw]; omega)
        have h6 : p + (2 * c.length + 1 + j) = p + 2 * c.length + 1 + j := by omega
        rw [h6] at h5
        rw [h5, patchedBlocks_getD_rest]

/-! ## Chunk accounting -/

theorem chunksOf_ne (l : List (List Nat × List Nat)) (h : l ≠ []) :
    chunksOf l ≠ [] := by
  rw [chunksOf_cons l h]
  simp

theorem chunksOf_sizes (l : List (List Nat × List Nat)) :
    ∀ c ∈ chunksOf l, c.length ≤ 256 := by
  induction l using chunksOf.induct with
  | case1 => simp [chunksOf]
  | case2 l h ih =>
    rw [chunksOf_cons l h]
    intro c hc
    rcases List.mem_cons.mp hc with h1 | h1
    · subst h1
      simp [List.length_take]
    · exact ih c h1

theorem chunkEntries_chunksOf (l : List (List Nat × List Nat)) :
    chunkEntries (chunksOf l) = l.map (fun kv => BomTreeEntry.mk kv.1 kv.2) := by
  induction l using chunksOf.induct with
  | case1 => simp [chunksOf, chunkEntries]
  | case2 l h ih =>
    rw [chunksOf_cons l h, chunkEntries, ih, ← List.map_append,
      List.take_append_drop]

theorem entriesCount_chunksOf (l : List (List Nat × List Nat)) :
    entriesCount (chunksOf l) = l.length := by
  induction l using chunksOf.induct with
  | case1 => simp [chunksOf, entriesCount]
  | case2 l h ih =>
    rw [chunksOf_cons l h, entriesCount, ih]
    simp only [List.length_take, List.length_drop]
    have : 0 < l.length := List.length_pos.mpr h
    omega

theorem chunksOf_length_le (l : List (List Nat × List Nat)) :
    (chunksOf l).length ≤ l.length := by
  induction l using chunksOf.induct with
  | case1 => simp [chunksOf]
  | case2 l h ih =>
    rw [chunksOf_cons l h]
    simp only [List.length_cons, List.length_drop] at ih ⊢
    have : 0 < l.length := List.length_pos.mpr h
    omega

theorem chunksWeight_eq (cs : List (List (List Nat × List Nat))) :
    chunksWeight cs = 2 * entriesCount cs + cs.length := by
  induction cs with
  | nil => rfl
  | cons c cs' ih =>
    simp only [chunksWeight, entriesCount, List.length_cons, ih]
    omega

theorem sumKV_append (a b : List (List Nat × List Nat)) :
    sumKV (a ++ b) = sumKV a + sumKV b := by
  induction a with
  | nil => simp [sumKV]
  | cons kv rest ih =>
    show sumKV (kv :: (rest ++ b)) = _
    rw [sumKV, ih, sumKV]
    omega

theorem sumKVChunks_chunksOf (l : List (List Nat × List Nat)) :
    sumKVChunks (chunksOf l) = sumKV l := by
  induction l using chunksOf.induct with
  | case1 => simp [chunksOf, sumKVChunks, sumKV]
  | case2 l h ih =>
    rw [chunksOf_cons l h, sumKVChunks, ih, ← sumKV_append,
      List.take_append_drop]

theorem blocksSize_pairBlocks (c : List (List Nat × List Nat)) :
    blocksSize (pairBlocks c) = sumKV c := by
  induction c with
  | nil => rfl
  | cons kv rest ih =>
    rw [pairBlocks, blocksSize, blocksSize, ih, sumKV]
    omega

theorem blocksSize_patchedBlocks (cs : List (List (List Nat × List Nat))) :
    ∀ p, blocksSize (patchedBlocks p cs)
      = sumKVChunks cs + 12 * cs.length + 8 * entriesCount cs := by
  induction cs with
  | nil => intro p; rfl
  | cons c cs' ih =>
    intro p
    rw [patchedBlocks, blocksSize_append, blocksSize, ih, leafBytes_length]
    simp only [sumKVChunks, List.length_cons, entriesCount,
      blocksSize_pairBlocks]
    omega

theorem treeHeaderBytes_length (entries : List (List Nat × List Nat)) (p : Nat) :
    (treeHeaderBytes entries p).length = 21 := by
  simp [treeHeaderBytes, length_TREE_MAGIC, length_u32be]

theorem treeHeaderBytes_take4 (entries : List (List Nat × List Nat)) (p : Nat) :
    (treeHeaderBytes entries p).take 4 = TREE_MAGIC := by
  have h : treeHeaderBytes entries p
      = TREE_MAGIC ++ (u32be 1 ++ (u32be (fwdOf p (chunksOf entries))
        ++ (u32be 4096 ++ (u32be entries.length ++ [0])))) := by
    simp [treeHeaderBytes, List.append_assoc]
  rw [h]
  exact take_pre _ _ _ length_TREE_MAGIC

theorem treeHeaderBytes_read_version (entries : List (List Nat × List Nat))
    (p : Nat) : readU32 (treeHeaderBytes entries p) 4 = 1 := by
  have h1 : readU32 (treeHeaderBytes entries p) 4 = 1 % 4294967296 := by
    apply readU32_at
    have h : treeHeaderBytes entries p
        = TREE_MAGIC ++ (u32be 1 ++ (u32be (fwdOf p (chunksOf entries))
          ++ (u32be 4096 ++ (u32be entries.length ++ [0])))) := by
      simp [treeHeaderBytes, List.append_assoc]
    rw [h]
    exact drop_pre _ _ _ length_TREE_MAGIC
  rw [h1]

theorem treeHeaderBytes_read_child (entries : List (List Nat × List Nat))
    (p : Nat) (h : fwdOf p (chunksOf entries) < 4294967296) :
    readU32 (treeHeaderBytes entries p) 8 = fwdOf p (chunksOf entries) := by
  have h1 : readU32 (treeHeaderBytes entries p) 8
      = fwdOf p (chunksOf entries) % 4294967296 := by
    apply readU32_at
    have h2 : treeHeaderBytes entries p
        = (TREE_MAGIC ++ u32be 1) ++ (u32be (fwdOf p (chunksOf entries))
          ++ (u32be 4096 ++ (u32be entries.length ++ [0]))) := by
      simp [treeHeaderBytes, List.append_assoc]
    rw [h2]
    exact drop_pre _ _ _ (by simp [length_TREE_MAGIC, length_u32be])
  rw [h1, Nat.mod_eq_of_lt h]

/-- The full writer→serialize→load→tree_entries round trip for non-empty
entry lists (the shared engine behind the round-trip claims).  The size
hypothesis keeps every u32 offset/index of the archive below `2^32`. -/
theorem roundtrip_main (entries : List (List Nat × List Nat)) (name : List Nat)
    (hne : entries ≠ []) (hnl : name.length < 256)
    (hfit : sumKV entries + 64 * entries.length + name.length + 128 < 4294967296) :
    ∃ root w1 bom,
      BomWriter.new.build_tree entries = some (root, w1) ∧
      Bom.load ((w1.add_variable name root).serialize) = Except.ok bom ∧
      bom.tree_entries name = Except.ok (asTreeEntries entries) := by
  have hEC := entriesCount_chunksOf entries
  have hSK := sumKVChunks_chunksOf entries
  have hNC := chunksOf_length_le entries
  have hCW := chunksWeight_eq (chunksOf entries)
  have hadd : ((⟨[[]] ++ patchedBlocks 1 (chunksOf entries)
        ++ [treeHeaderBytes entries 1], []⟩ : BomWriter).add_variable
          name (1 + chunksWeight (chunksOf entries)))
      = ⟨[[]] ++ patchedBlocks 1 (chunksOf entries)
          ++ [treeHeaderBytes entries 1],
        [(name, 1 + chunksWeight (chunksOf entries))]⟩ := rfl
  have hBS : blocksSize ([[]] ++ patchedBlocks 1 (chunksOf entries)
        ++ [treeHeaderBytes entries 1])
      = sumKV entries + 12 * (chunksOf entries).length + 8 * entries.length
        + 21 := by
    rw [blocksSize_append, blocksSize_append, blocksSize_patchedBlocks]
    simp only [blocksSize, treeHeaderBytes_length, hSK, hEC, List.length_nil]
    omega
  have hNB : ([[]] ++ patchedBlocks 1 (chunksOf entries)
        ++ [treeHeaderBytes entries 1]).length
      = chunksWeight (chunksOf entries) + 2 := by
    simp only [List.length_append, patchedBlocks_length]
    simp
    omega
  have hLen := serialize_length ⟨[[]] ++ patchedBlocks 1 (chunksOf entries)
      ++ [treeHeaderBytes entries 1],
    [(name, 1 + chunksWeight (chunksOf entries))]⟩
  have hVS : varsSize [(name, 1 + chunksWeight (chunksOf entries))]
      = 5 + name.length := by
    simp [varsSize]
  rw [show (⟨[[]] ++ patchedBlocks 1 (chunksOf entries)
        ++ [treeHeaderBytes entries 1],
      [(name, 1 + chunksWeight (chunksOf entries))]⟩ : BomWriter).blocks
      = [[]] ++ patchedBlocks 1 (chunksOf entries)
        ++ [treeHeaderBytes entries 1] from rfl,
    show (⟨[[]] ++ patchedBlocks 1 (chunksOf entries)
        ++ [treeHeaderBytes entries 1],
      [(name, 1 + chunksWeight (chunksOf entries))]⟩ : BomWriter).vars
      = [(name, 1 + chunksWeight (chunksOf entries))] from rfl,
    hBS, hNB, hVS] at hLen
  have hfitL : (BomWriter.serialize ⟨[[]] ++ patchedBlocks 1 (chunksOf entries)
        ++ [treeHeaderBytes entries 1],
      [(name, 1 + chunksWeight (chunksOf entries))]⟩).length < 4294967296 := by
    rw [hLen]
    omega
  have hvars := variables_serialize _ hfitL (by
    intro nv hnv
    rw [List.mem_singleton] at hnv
    subst hnv
    refine ⟨hnl, ?_⟩
    rw [hLen] at hfitL
    omega)
  have hvg : (loadedBom ⟨[[]] ++ patchedBlocks 1 (chunksOf entries)
        ++ [treeHeaderBytes entries 1],
      [(name, 1 + chunksWeight (chunksOf entries))]⟩).variable_get name
      = some (1 + chunksWeight (chunksOf entries)) := by
    rw [Bom.variable_get, hvars]
    simp [List.find?]
  have hNB' : (⟨[[]] ++ patchedBlocks 1 (chunksOf entries)
        ++ [treeHeaderBytes entries 1],
      [(name, 1 + chunksWeight (chunksOf entries))]⟩ : BomWriter).blocks.length
      = chunksWeight (chunksOf entries) + 2 := hNB
  have hhdr : (loadedBom ⟨[[]] ++ patchedBlocks 1 (chunksOf entries)
        ++ [treeHeaderBytes entries 1],
      [(name, 1 + chunksWeight (chunksOf entries))]⟩).index_get
        (1 + chunksWeight (chunksOf entries))
      = some (treeHeaderBytes entries 1) := by
    have h := index_get_serialize _ hfitL (1 + chunksWeight (chunksOf entries))
      (by rw [hNB']; omega)
    have hl : (([[]] ++ patchedBlocks 1 (chunksOf entries)) :
        List (List Nat)).length = 1 + chunksWeight (chunksOf entries) := by
      rw [List.length_append, patchedBlocks_length, List.length_singleton]
    have hg := getD_middle ([[]] ++ patchedBlocks 1 (chunksOf entries)) []
      (treeHeaderBytes entries 1)
    rw [hl] at hg
    rw [hg] at h
    exact h
  have hreg : ∀ j, j < chunksWeight (chunksOf entries) →
      (loadedBom ⟨[[]] ++ patchedBlocks 1 (chunksOf entries)
          ++ [treeHeaderBytes entries 1],
        [(name, 1 + chunksWeight (chunksOf entries))]⟩).index_get (1 + j)
        = some ((patchedBlocks 1 (chunksOf entries)).getD j []) := by
    intro j hj
    have h := index_get_serialize _ hfitL (1 + j) (by rw [hNB']; omega)
    have hg : (([[]] ++ patchedBlocks 1 (chunksOf entries)
          ++ [treeHeaderBytes entries 1]) : List (List Nat)).getD (1 + j) []
        = (patchedBlocks 1 (chunksOf entries)).getD j [] := by
      rw [List.getD_append _ _ _ _ (by simp [patchedBlocks_length]; omega)]
      rw [List.getD_append_right _ _ _ _ (by simp)]
      simp
    rw [hg] at h
    exact h
  have hcoll := collect_chain (chunksOf entries)
    (loadedBom ⟨[[]] ++ patchedBlocks 1 (chunksOf entries)
        ++ [treeHeaderBytes entries 1],
      [(name, 1 + chunksWeight (chunksOf entries))]⟩)
    1 ((chunksWeight (chunksOf entries) + 2) + 1)
    (chunksOf_ne entries hne) (by omega) (chunksOf_sizes entries) (le_refl 1)
    (by omega) hreg
  refine ⟨1 + chunksWeight (chunksOf entries),
    ⟨[[]] ++ patchedBlocks 1 (chunksOf entries) ++ [treeHeaderBytes entries 1], []⟩,
    loadedBom ⟨[[]] ++ patchedBlocks 1 (chunksOf entries)
        ++ [treeHeaderBytes entries 1],
      [(name, 1 + chunksWeight (chunksOf entries))]⟩, ?_, ?_, ?_⟩
  · have hbt := build_tree_spec entries hne BomWriter.new
    have e1 : BomWriter.new.blocks = [[]] := rfl
    have e2 : BomWriter.new.vars = [] := rfl
    have e3 : ([[]] : List (List Nat)).length = 1 := rfl
    rw [e1, e2, e3] at hbt
    exact hbt
  · rw [hadd]
    exact load_serialize _ hfitL
  · rw [Bom.tree_entries.eq_def]
    simp only [hvg, hhdr]
    rw [treeHeaderBytes_length]
    rw [if_neg (by omega)]
    rw [treeHeaderBytes_take4, if_neg (by simp)]
    rw [treeHeaderBytes_read_version, if_neg (by simp)]
    rw [treeHeaderBytes_read_child entries 1
      (by have := fwdOf_le 1 (chunksOf entries); rw [hLen] at hfitL; omega)]
    have hic : (loadedBom ⟨[[]] ++ patchedBlocks 1 (chunksOf entries)
          ++ [treeHeaderBytes entries 1],
        [(name, 1 + chunksWeight (chunksOf entries))]⟩).index_count
        = chunksWeight (chunksOf entries) + 2 := hNB'
    rw [hic, hcoll, chunkEntries_chunksOf]
    rfl

/-! ## C1 and C8 -/

/-- C1 (amended): for every NON-EMPTY list of (key, value) byte-pairs
(including lists spanning multiple leaves) whose serialized archive fits
in u32 offsets, `build_tree` → `add_variable` → `serialize` → `load` →
`tree_entries` returns exactly the same pairs in the same order.  The
original claim also covered the empty list, where `build_tree` panics
instead (see the counterexample and C2). -/
theorem tree_roundtrip (entries : List (List Nat × List Nat)) (name : List Nat)
    (hne : entries ≠ [])
    (hkv : ∀ kv ∈ entries, (∀ b ∈ kv.1, b < 256) ∧ (∀ b ∈ kv.2, b < 256))
    (hnb : ∀ b ∈ name, b < 256) (hnl : name.length < 256)
    (hfit : sumKV entries + 64 * entries.length + name.length + 128
      < 4294967296) :
    ∃ root w1 bom,
      BomWriter.new.build_tree entries = some (root, w1) ∧
      Bom.load ((w1.add_variable name root).serialize) = Except.ok bom ∧
      bom.tree_entries name = Except.ok (asTreeEntries entries) :=
  roundtrip_main entries name hne hnl hfit

/-- Witness for C1 at a concrete one-entry list. -/
theorem tree_roundtrip_witness :
    ∃ root w1 bom,
      BomWriter.new.build_tree [([104, 105], [7])] = some (root, w1) ∧
      Bom.load ((w1.add_variable (ascii "Paths") root).serialize)
        = Except.ok bom ∧
      bom.tree_entries (ascii "Paths")
        = Except.ok (asTreeEntries [([104, 105], [7])]) :=
  tree_roundtrip [([104, 105], [7])] (ascii "Paths") (by decide) (by decide)
    (by decide) (by decide) (by decide)

/-- Counterexample to C1 as stated: on the empty list the pipeline never
starts — `build_tree` panics (modelled as `none`), so no round trip
happens at all. -/
theorem tree_roundtrip_empty_fails : BomWriter.new.build_tree [] = none := by
  simp [BomWriter.build_tree, chunksOf, buildLeaves]

/-- C8: building a tree from exactly 300 entries produces exactly 2 leaves
(256 and 44 entries) among the writer's blocks — at block indices 513 and
602 of the 604 blocks, with the tree header (root) at 603; the first
leaf's forward field is the second leaf's block index 602, the second
leaf's forward field is 0; and reading the archive back yields all 300
entries in order, none duplicated or dropped. -/
theorem leaf_chain_300 (entries : List (List Nat × List Nat)) (name : List Nat)
    (hlen : entries.length = 300)
    (hkv : ∀ kv ∈ entries, (∀ b ∈ kv.1, b < 256) ∧ (∀ b ∈ kv.2, b < 256))
    (hnb : ∀ b ∈ name, b < 256) (hnl : name.length < 256)
    (hfit : sumKV entries + 64 * entries.length + name.length + 128
      < 4294967296) :
    ∃ root w1 bom,
      BomWriter.new.build_tree entries = some (root, w1) ∧
      root = 603 ∧
      w1.blocks.length = 604 ∧
      readU16 (w1.blocks.getD 513 []) 0 = 1 ∧
      readU16 (w1.blocks.getD 513 []) 2 = 256 ∧
      readU32 (w1.blocks.getD 513 []) 4 = 602 ∧
      readU16 (w1.blocks.getD 602 []) 0 = 1 ∧
      readU16 (w1.blocks.getD 602 []) 2 = 44 ∧
      readU32 (w1.blocks.getD 602 []) 4 = 0 ∧
      Bom.load ((w1.add_variable name root).serialize) = Except.ok bom ∧
      bom.tree_entries name = Except.ok (asTreeEntries entries) := by
  have hne : entries ≠ [] := by
    intro h
    rw [h] at hlen
    simp at hlen
  have hlen1 : (entries.take 256).length = 256 := by
    rw [List.length_take]
    omega
  have hlen2 : (entries.drop 256).length = 44 := by
    rw [List.length_drop]
    omega
  have hchunks : chunksOf entries = [entries.take 256, entries.drop 256] := by
    rw [chunksOf_cons entries hne]
    have hd : entries.drop 256 ≠ [] := by
      intro h
      rw [h] at hlen2
      simp at hlen2
    rw [chunksOf_cons _ hd]
    rw [List.take_of_length_le (show (entries.drop 256).length ≤ 256 by omega)]
    have hdd : (entries.drop 256).drop 256 = [] :=
      List.eq_nil_of_length_eq_zero (by rw [List.length_drop]; omega)
    rw [hdd]
    rw [chunksOf]
    simp
  have hweight : chunksWeight (chunksOf entries) = 602 := by
    rw [hchunks]
    simp only [chunksWeight, hlen1, hlen2]
    try omega
  have hpb : patchedBlocks 1 (chunksOf entries)
      = pairBlocks (entries.take 256)
        ++ leafBytes (entries.take 256) 1 602
          :: (pairBlocks (entries.drop 256)
            ++ [leafBytes (entries.drop 256) 514 0]) := by
    rw [hchunks]
    simp only [patchedBlocks, fwdOf, hlen1, hlen2]
    try norm_num
  obtain ⟨root, w1, bom, hbt, hload, htree⟩ :=
    roundtrip_main entries name hne hnl hfit
  have hspec := build_tree_spec entries hne BomWriter.new
  have e1 : BomWriter.new.blocks = [[]] := rfl
  have e2 : BomWriter.new.vars = [] := rfl
  have e3 : ([[]] : List (List Nat)).length = 1 := rfl
  rw [e1, e2, e3] at hspec
  rw [hspec] at hbt
  injection hbt with hbt2
  injection hbt2 with hroot hw1
  have hpl1 : (pairBlocks (entries.take 256)).length = 512 := by
    rw [pairBlocks_length, hlen1]
  have hpl2 : (pairBlocks (entries.drop 256)).length = 88 := by
    rw [pairBlocks_length, hlen2]
  have hg513 : w1.blocks.getD 513 [] = leafBytes (entries.take 256) 1 602 := by
    rw [← hw1]
    rw [List.getD_append _ _ _ _ (by
      simp only [List.length_append, patchedBlocks_length, hweight]
      simp
      try omega)]
    rw [List.getD_append_right _ _ _ _ (by simp)]
    rw [hpb]
    simp only [List.length_singleton]
    have h89 : 513 - 1 = 512 := by omega
    rw [h89, ← hpl1]
    exact getD_middle _ _ _
  have hg602 : w1.blocks.getD 602 [] = leafBytes (entries.drop 256) 514 0 := by
    rw [← hw1]
    rw [List.getD_append _ _ _ _ (by
      simp only [List.length_append, patchedBlocks_length, hweight]
      simp
      try omega)]
    rw [List.getD_append_right _ _ _ _ (by simp)]
    rw [hpb]
    simp only [List.length_singleton]
    have h601 : (602 : Nat) - 1 = 601 := by omega
    rw [h601]
    rw [List.getD_append_right _ _ _ _ (by rw [hpl1]; omega)]
    rw [hpl1]
    have h89 : (601 : Nat) - 512 = 88 + 1 := by omega
    rw [h89]
    show (pairBlocks (entries.drop 256)
        ++ [leafBytes (entries.drop 256) 514 0]).getD 88 [] = _
    rw [← hpl2]
    exact getD_middle _ _ _
  refine ⟨root, w1, bom, ?_, ?_, ?_, ?_, ?_, ?_, ?_, ?_, ?_, hload, htree⟩
  · rw [hspec]
    rw [← hroot, ← hw1]
  · rw [← hroot, hweight]
  · rw [← hw1]
    simp only [List.length_append, patchedBlocks_length, hweight]
    simp
  · rw [hg513, leafBytes_read_isleaf]
  · rw [hg513, leafBytes_read_count _ _ _ (by rw [hlen1]; omega), hlen1]
  · rw [hg513, leafBytes_read_forward _ _ _ (by omega)]
  · rw [hg602, leafBytes_read_isleaf]
  · rw [hg602, leafBytes_read_count _ _ _ (by rw [hlen2]; omega), hlen2]
  · rw [hg602, leafBytes_read_forward _ _ _ (by omega)]

set_option maxRecDepth 4096 in
/-- Witness for C8 at a concrete 300-entry list. -/
theorem leaf_chain_300_witness :
    ∃ root w1 bom,
      BomWriter.new.build_tree (List.replicate 300 ([1], [2]))
        = some (root, w1) ∧
      root = 603 ∧
      w1.blocks.length = 604 ∧
      readU16 (w1.blocks.getD 513 []) 0 = 1 ∧
      readU16 (w1.blocks.getD 513 []) 2 = 256 ∧
      readU32 (w1.blocks.getD 513 []) 4 = 602 ∧
      readU16 (w1.blocks.getD 602 []) 0 = 1 ∧
      readU16 (w1.blocks.getD 602 []) 2 = 44 ∧
      readU32 (w1.blocks.getD 602 []) 4 = 0 ∧
      Bom.load ((w1.add_variable (ascii "Paths") root).serialize)
        = Except.ok bom ∧
      bom.tree_entries (ascii "Paths")
        = Except.ok (asTreeEntries (List.replicate 300 ([1], [2]))) :=
  leaf_chain_300 (List.replicate 300 ([1], [2])) (ascii "Paths") (by decide)
    (by decide) (by decide) (by decide) (by decide)
